import Mathlib

/-!
Verification of the katana/Galois parallel-runtime core: the abort/retry
handler, the worklist family (LIFO, sFIFO, ChunkedFIFO, OrderedByIntegerMetric,
StealingLocalWL) and the for-each executor's commit/abort/batch logic, as a
shallow embedding of the C++ sources.  Machine integers that stay small and
non-negative are modelled with Nat; the C++ `int retries` field is modelled
with Int so that the `retries - 1` and parity computations agree with the
source on every input.  Per-thread storage (`PerThreadStorage`, `PerCPU`) is
modelled as a list indexed by thread id; the FIFO queue behaviour of `GFIFO`
and of the chunk-based `FIFO` container (push at the back, pop at the front)
is modelled by a Lean list with the front at the head.
-/

namespace Katana

/-- Socket topology as seen through the `ThreadPool` interface used by the
abort handler: `getMaxSockets()`, `getSocket()/socketOf`, and
`getLeaderForSocket`.  `ThreadPool::getLeader()` (the leader of the calling
thread's socket) is `leaderForSocket (socketOf tid)`. -/
structure Topology where
  maxSockets : Nat
  socketOf : Nat → Nat
  leaderForSocket : Nat → Nat

/-- `AbortHandler::Item`: a work item paired with its retry count
(C++ `int retries`). -/
structure Item (T : Type) where
  val : T
  retries : Int
deriving DecidableEq, Repr

/-- Enqueue onto thread `i`'s `GFIFO` queue (push at the back). -/
def pushQ {T : Type} (qs : List (List (Item T))) (i : Nat) (it : Item T) :
    List (List (Item T)) :=
  qs.set i (qs.getD i [] ++ [it])

/-- `AbortHandler` state: the per-thread queues of retry records plus the
`useBasicPolicy` flag fixed at construction. -/
structure AbortHandler (T : Type) where
  queues : List (List (Item T))
  useBasicPolicy : Bool
deriving DecidableEq, Repr

namespace AbortHandler

/-- `AbortHandler::AbortHandler()`: the constructor sets
`useBasicPolicy = GetThreadPool().getMaxSockets() > 2`. -/
def init {T : Type} (topo : Topology) (numThreads : Nat) : AbortHandler T :=
  { queues := List.replicate numThreads [], useBasicPolicy := 2 < topo.maxSockets }

/-- `AbortHandler::basicPolicy`: enqueue on the leader of socket
`socket / 2`. -/
def basicPolicy {T : Type} (topo : Topology) (tid : Nat)
    (qs : List (List (Item T))) (item : Item T) : List (List (Item T)) :=
  pushQ qs (topo.leaderForSocket (topo.socketOf tid / 2)) item

/-- `AbortHandler::doublePolicy`: with `item.retries - 1` odd, retain locally;
otherwise climb the intra-socket tree (midpoint between leader and self), or
from the leader climb the socket tree. -/
def doublePolicy {T : Type} (topo : Topology) (tid : Nat)
    (qs : List (List (Item T))) (item : Item T) : List (List (Item T)) :=
  let retries : Int := item.retries - 1
  if retries % 2 = 1 then
    pushQ qs tid item
  else
    let socket := topo.socketOf tid
    let leader := topo.leaderForSocket socket
    if tid ≠ leader then
      pushQ qs (leader + (tid - leader) / 2) item
    else
      pushQ qs (topo.leaderForSocket (socket / 2)) item

/-- `AbortHandler::push(const value_type&)`: wrap the fresh value with
`retries = 1` and enqueue it on the calling worker's local queue. -/
def pushVal {T : Type} (tid : Nat) (s : AbortHandler T) (v : T) : AbortHandler T :=
  { s with queues := pushQ s.queues tid { val := v, retries := 1 } }

/-- `AbortHandler::push(const Item&)`: increment the retry count and dispatch
to the policy selected by `useBasicPolicy`. -/
def pushItem {T : Type} (topo : Topology) (tid : Nat) (s : AbortHandler T)
    (item : Item T) : AbortHandler T :=
  let newitem : Item T := { val := item.val, retries := item.retries + 1 }
  if s.useBasicPolicy then
    { s with queues := basicPolicy topo tid s.queues newitem }
  else
    { s with queues := doublePolicy topo tid s.queues newitem }

/-- Modelled from the spec's words, for comparison with `pushItem`: the claim
says the handler chooses the basic policy when the machine has at most 2
sockets and the double policy when it has more than 2 sockets. -/
def pushItemClaimed {T : Type} (topo : Topology) (tid : Nat) (s : AbortHandler T)
    (item : Item T) : AbortHandler T :=
  let newitem : Item T := { val := item.val, retries := item.retries + 1 }
  if topo.maxSockets ≤ 2 then
    { s with queues := basicPolicy topo tid s.queues newitem }
  else
    { s with queues := doublePolicy topo tid s.queues newitem }

end AbortHandler

/-! ## Worklists -/

/-- A worklist operation issued by the single worker: a push of a value or a
pop attempt. -/
inductive WLOp (T : Type) where
  | push (v : T)
  | pop
deriving DecidableEq, Repr

/-- The multiset of values pushed by a sequence of operations. -/
def pushedOf {T : Type} (ops : List (WLOp T)) : Multiset T :=
  ↑(ops.filterMap fun op =>
    match op with
    | WLOp.push v => some v
    | WLOp.pop => none)

/-- Repeated popping until the first failed pop (or until the fuel runs out),
returning the successfully popped values in order together with the final
state. -/
def drainWL {T σ : Type} (pop : σ → Option T × σ) : Nat → σ → List T × σ
  | 0, s => ([], s)
  | fuel + 1, s =>
    match pop s with
    | (none, s1) => ([], s1)
    | (some v, s1) =>
      let r := drainWL pop fuel s1
      (v :: r.1, r.2)

/-- `WorkList::LIFO`: a locked `std::vector`; `push` is `push_back`, `pop`
takes `back()` and `pop_back()`. -/
structure LIFO (T : Type) where
  wl : List T
deriving DecidableEq, Repr

namespace LIFO

def push {T : Type} (s : LIFO T) (v : T) : LIFO T :=
  ⟨s.wl ++ [v]⟩

def pop {T : Type} (s : LIFO T) : Option T × LIFO T :=
  match s.wl.getLast? with
  | none => (none, s)
  | some v => (some v, ⟨s.wl.dropLast⟩)

/-- Run a sequence of operations from a state, collecting the successfully
popped values in order. -/
def runOps {T : Type} : List (WLOp T) → LIFO T → LIFO T × List T
  | [], s => (s, [])
  | WLOp.push v :: rest, s => runOps rest (s.push v)
  | WLOp.pop :: rest, s =>
    match s.pop with
    | (none, s1) => runOps rest s1
    | (some v, s1) =>
      let r := runOps rest s1
      (r.1, v :: r.2)

end LIFO

/-- `WorkList::sFIFO`: a locked `std::deque`; `push` is `push_back`, `pop`
takes `front()` and `pop_front()`. -/
structure sFIFO (T : Type) where
  wl : List T
deriving DecidableEq, Repr

namespace sFIFO

def push {T : Type} (s : sFIFO T) (v : T) : sFIFO T :=
  ⟨s.wl ++ [v]⟩

def pop {T : Type} (s : sFIFO T) : Option T × sFIFO T :=
  match s.wl with
  | [] => (none, s)
  | v :: rest => (some v, ⟨rest⟩)

def runOps {T : Type} : List (WLOp T) → sFIFO T → sFIFO T × List T
  | [], s => (s, [])
  | WLOp.push v :: rest, s => runOps rest (s.push v)
  | WLOp.pop :: rest, s =>
    match s.pop with
    | (none, s1) => runOps rest s1
    | (some v, s1) =>
      let r := runOps rest s1
      (r.1, v :: r.2)

end sFIFO

/-- `WorkList::ChunkedFIFO`, seen by the single worker: the worker's consumer
chunk `cur`, its producer chunk `next`, and the shared singly-linked list of
chunks reachable from `head` (front of the Lean list = `head`).  A chunk is a
`FixedSizeRing` of capacity `chunksize`, modelled as a list with the ring's
front at the head. -/
structure ChunkedFIFO (T : Type) where
  cur : Option (List T)
  next : Option (List T)
  shared : List (List T)
deriving DecidableEq, Repr

namespace ChunkedFIFO

def initial {T : Type} : ChunkedFIFO T :=
  { cur := none, next := none, shared := [] }

/-- `pushChunk`: append the chunk at the tail of the shared list. -/
def pushChunk {T : Type} (s : ChunkedFIFO T) (c : List T) : ChunkedFIFO T :=
  { s with shared := s.shared ++ [c] }

/-- `push`: if the producer chunk is full, move it to the shared list; then
(allocating a fresh producer chunk if there is none) `push_back` the value
into the producer chunk. -/
def push {T : Type} (cs : Nat) (s : ChunkedFIFO T) (v : T) : ChunkedFIFO T :=
  let s1 :=
    match s.next with
    | some c => if c.length = cs then { pushChunk s c with next := none } else s
    | none => s
  let c := s1.next.getD []
  { s1 with next := some (c ++ [v]) }

/-- `pop`: discard an emptied consumer chunk; if there is no consumer chunk,
adopt one popped from the shared list (`popChunk`), else adopt the producer
chunk; finally `pop_front` from the consumer chunk. -/
def pop {T : Type} (s : ChunkedFIFO T) : Option T × ChunkedFIFO T :=
  let s1 :=
    match s.cur with
    | some c => if c.isEmpty then { s with cur := none } else s
    | none => s
  match s1.cur with
  | some c =>
    match c with
    | [] => (none, s1)
    | x :: xs => (some x, { s1 with cur := some xs })
  | none =>
    match s1.shared with
    | r :: rest =>
      match r with
      | [] => (none, { s1 with cur := some r, shared := rest })
      | x :: xs => (some x, { s1 with cur := some xs, shared := rest })
    | [] =>
      match s1.next with
      | some c =>
        match c with
        | [] => (none, { s1 with cur := some c, next := none })
        | x :: xs => (some x, { s1 with cur := some xs, next := none })
      | none => (none, s1)

/-- `empty()`: non-empty consumer chunk or non-empty producer chunk means not
empty; then the source returns `false` when `head` is null and `true`
otherwise (`if (!head.getValue()) return false; return true;`). -/
def empty {T : Type} (s : ChunkedFIFO T) : Bool :=
  if (s.cur.getD []).isEmpty = false then false
  else if (s.next.getD []).isEmpty = false then false
  else if s.shared.isEmpty then false
  else true

/-- `fill_initial`: push every seed item, then push the producer chunk onto
the shared list and clear it (`pushChunk(n.next); n.next = 0;`; when the
producer chunk pointer is null the shared list is unchanged). -/
def fillInitial {T : Type} (cs : Nat) (s : ChunkedFIFO T) (items : List T) :
    ChunkedFIFO T :=
  let s1 := items.foldl (push cs) s
  match s1.next with
  | some c => { pushChunk s1 c with next := none }
  | none => s1

/-- All items reachable from the worker: consumer chunk, producer chunk, and
the shared chunk list, in that order. -/
def toList {T : Type} (s : ChunkedFIFO T) : List T :=
  s.cur.getD [] ++ s.next.getD [] ++ s.shared.flatten

def runOps {T : Type} (cs : Nat) : List (WLOp T) → ChunkedFIFO T → ChunkedFIFO T × List T
  | [], s => (s, [])
  | WLOp.push v :: rest, s => runOps cs rest (push cs s v)
  | WLOp.pop :: rest, s =>
    match pop s with
    | (none, s1) => runOps cs rest s1
    | (some v, s1) =>
      let r := runOps cs rest s1
      (r.1, v :: r.2)

end ChunkedFIFO

/-- States of the chunked FIFO reachable through `push`/`pop` from the
per-worker initial state keep every chunk on the shared list non-empty
(chunks are published only when full) and the producer chunk non-empty
(it is created by pushing into it). -/
def ChunkedFIFO.Inv {T : Type} (s : ChunkedFIFO T) : Prop :=
  (∀ c ∈ s.shared, c ≠ []) ∧ (∀ c, s.next = some c → c ≠ [])

/-- `WorkList::OrderedByIntegerMetric` for the single worker: `size` bucket
sub-worklists (the default `FIFO` container, whose external behaviour is a
queue: push at the back, `try_pop` at the front) and the worker's cursor.
The indexer is passed explicitly to the operations. -/
structure OrderedByIntegerMetric (T : Type) where
  size : Nat
  data : List (List T)
  cursor : Nat
deriving DecidableEq, Repr

namespace OrderedByIntegerMetric

/-- The constructor: `size = range + 1`, all buckets empty, cursor 0. -/
def init {T : Type} (range : Nat) : OrderedByIntegerMetric T :=
  { size := range + 1, data := List.replicate (range + 1) [], cursor := 0 }

def bucketAt {T : Type} (s : OrderedByIntegerMetric T) (i : Nat) : List T :=
  s.data.getD i []

/-- `push`: route to bucket `min(I(val), size - 1)`; lower the cursor when the
target bucket is below it. -/
def push {T : Type} (I : T → Nat) (s : OrderedByIntegerMetric T) (v : T) :
    OrderedByIntegerMetric T :=
  let index := min (I v) (s.size - 1)
  let data := s.data.set index (s.data.getD index [] ++ [v])
  let cursor := if index < s.cursor then index else s.cursor
  { s with data := data, cursor := cursor }

/-- The scan loop of `pop`: `for (cur = 0; cur < size; ++cur)`, trying
`try_pop` on each bucket from position `i` with `fuel` buckets left to
visit; returns the bucket index, the popped value and the updated buckets. -/
def scanFrom {T : Type} (data : List (List T)) :
    Nat → Nat → Option (Nat × T × List (List T))
  | _, 0 => none
  | i, fuel + 1 =>
    match data.getD i [] with
    | x :: xs => some (i, x, data.set i xs)
    | [] => scanFrom data (i + 1) fuel

/-- `pop`: try the cursor's bucket; on failure scan the buckets in ascending
order from index 0, moving the cursor to the first hit; when every bucket's
pop fails, reset the cursor to 0 and report failure. -/
def pop {T : Type} (s : OrderedByIntegerMetric T) :
    Option T × OrderedByIntegerMetric T :=
  match s.data.getD s.cursor [] with
  | x :: xs => (some x, { s with data := s.data.set s.cursor xs })
  | [] =>
    match scanFrom s.data 0 s.size with
    | some (i, x, d) => (some x, { s with data := d, cursor := i })
    | none => (none, { s with cursor := 0 })

/-- Single-worker OBIM invariant: the bucket array has `size` buckets, every
item sits in the bucket its index names (all indices within range), and every
bucket below the cursor is empty. -/
def Inv {T : Type} (I : T → Nat) (s : OrderedByIntegerMetric T) : Prop :=
  s.data.length = s.size ∧ 0 < s.size ∧
  (∀ j, j < s.cursor → s.bucketAt j = []) ∧
  (∀ i, ∀ v ∈ s.bucketAt i, I v = i ∧ i < s.size)

end OrderedByIntegerMetric

/-- `WorkList::StealingLocalWL` for `n` workers: a per-worker inner container
(the default `FIFO`, a queue) indexed by thread id. -/
structure StealingLocalWL (T : Type) where
  data : List (List T)
deriving DecidableEq, Repr

namespace StealingLocalWL

/-- `push`: enqueue on the calling worker's own inner queue. -/
def push {T : Type} (tid : Nat) (s : StealingLocalWL T) (v : T) :
    StealingLocalWL T :=
  { s with data := s.data.set tid (s.data.getD tid [] ++ [v]) }

/-- Modelled from the spec: `PerCPU::getNext` (not in the sources; only its
caller is) rotates to the next worker, `(tid + 1) mod n`. -/
def nextOf (n tid : Nat) : Nat :=
  (tid + 1) % n

/-- `pop`: pop the calling worker's own inner queue; on failure, pop the
rotating next worker's queue (`data.getNext().pop()`). -/
def pop {T : Type} (n tid : Nat) (s : StealingLocalWL T) :
    Option T × StealingLocalWL T :=
  match s.data.getD tid [] with
  | x :: xs => (some x, { s with data := s.data.set tid xs })
  | [] =>
    match s.data.getD (nextOf n tid) [] with
    | x :: xs => (some x, { s with data := s.data.set (nextOf n tid) xs })
    | [] => (none, s)

/-- `empty()`: `return data.get().empty();` — only the calling worker's own
inner queue is consulted. -/
def empty {T : Type} (tid : Nat) (s : StealingLocalWL T) : Bool :=
  (s.data.getD tid []).isEmpty

end StealingLocalWL

/-! ## For-each executor -/

/-- The trait flags of `ForEachExecutor`, resolved at construction:
`needsPush`, `needsAborts`, `needsPia`, `needsBreak`. -/
structure ExecEnv where
  needsPush : Bool
  needsAborts : Bool
  needsPia : Bool
  needsBreak : Bool
deriving DecidableEq, Repr

/-- `ThreadLocalData`: the user-facing push buffer and per-iteration
allocator of `UserContextAccess` (the allocator modelled by its count of live
allocations, reset to 0 by `resetAlloc`), the conflict context's acquisition
log (`SimpleRuntimeContext` is outside the sources; modelled from the spec:
acquisitions performed between start and commit/cancel are logged, and
commit/cancel release them all), and the `LoopStatistics` counters. -/
structure ThreadLocalData (T : Type) where
  pushBuffer : List T
  allocCount : Nat
  ctxLog : List Nat
  iterations : Nat
  conflicts : Nat
  pushes : Nat
deriving DecidableEq, Repr

/-- The executor state visible to one worker: its thread-local data, the main
worklist (a FIFO list: `push(range)` appends, `pop` takes the front), and the
abort handler. -/
structure ExecState (T : Type) where
  tld : ThreadLocalData T
  wl : List T
  handler : AbortHandler T
deriving DecidableEq, Repr

/-- The outcome of one invocation of the user operator on one item: the items
it pushed through the user context (possibly partial when it aborts), the
acquisitions it performed on shared data, and whether it ran to completion
(`ok = false` means a conflict was signalled by a non-local control
transfer). -/
structure OpResult (T : Type) where
  pushed : List T
  acquired : List Nat
  ok : Bool

namespace Exec

/-- `ForEachExecutor::commitIteration`: move the push buffer into the
worklist by one bulk push and clear it, counting the pushes; reset the
per-iteration allocator; commit the conflict context. -/
def commitIteration {T : Type} (env : ExecEnv) (st : ExecState T) : ExecState T :=
  let st1 :=
    if env.needsPush then
      let pb := st.tld.pushBuffer
      if pb.length ≠ 0 then
        { st with
          tld := { st.tld with pushes := st.tld.pushes + pb.length, pushBuffer := [] },
          wl := st.wl ++ pb }
      else st
    else st
  let st2 :=
    if env.needsPia then { st1 with tld := { st1.tld with allocCount := 0 } } else st1
  if env.needsAborts then { st2 with tld := { st2.tld with ctxLog := [] } } else st2

/-- `ForEachExecutor::abortIteration` for a fresh value popped from the main
worklist: cancel the conflict context (releasing every logged acquisition),
count the conflict, hand the item to the abort handler (the `value_type`
overload of `AbortHandler::push`), clear the push buffer, reset the
allocator. -/
def abortIterationVal {T : Type} (env : ExecEnv) (tid : Nat) (v : T)
    (st : ExecState T) : ExecState T :=
  let tld1 := { st.tld with ctxLog := [] }
  let tld2 := { tld1 with conflicts := tld1.conflicts + 1 }
  let handler := AbortHandler.pushVal tid st.handler v
  let tld3 := if env.needsPush then { tld2 with pushBuffer := [] } else tld2
  let tld4 := if env.needsPia then { tld3 with allocCount := 0 } else tld3
  { st with tld := tld4, handler := handler }

/-- `ForEachExecutor::abortIteration` for a retry record popped from the
abort queue: the same, but the item goes through the `Item` overload of
`AbortHandler::push`. -/
def abortIterationItem {T : Type} (env : ExecEnv) (topo : Topology) (tid : Nat)
    (item : Item T) (st : ExecState T) : ExecState T :=
  let tld1 := { st.tld with ctxLog := [] }
  let tld2 := { tld1 with conflicts := tld1.conflicts + 1 }
  let handler := AbortHandler.pushItem topo tid st.handler item
  let tld3 := if env.needsPush then { tld2 with pushBuffer := [] } else tld2
  let tld4 := if env.needsPia then { tld3 with allocCount := 0 } else tld3
  { st with tld := tld4, handler := handler }

/-- `ForEachExecutor::doProcess` on a value from the main worklist: start the
iteration, count it, run the user operator (its pushes accumulate in the push
buffer, its acquisitions in the conflict log), then commit — or, when the
operator signals a conflict, abort.  Returns the new state and whether the
iteration committed. -/
def doProcessVal {T : Type} (env : ExecEnv) (tid : Nat) (op : T → OpResult T)
    (v : T) (st : ExecState T) : ExecState T × Bool :=
  let r := op v
  let tld :=
    { st.tld with
      iterations := st.tld.iterations + 1,
      pushBuffer := st.tld.pushBuffer ++ r.pushed,
      ctxLog := st.tld.ctxLog ++ (if env.needsAborts then r.acquired else []) }
  let st1 := { st with tld := tld }
  if r.ok then (commitIteration env st1, true)
  else (abortIterationVal env tid v st1, false)

/-- `doProcess` on `aborted.value(item)` for a retry record from the abort
queue; a conflict re-routes the record through `AbortHandler::push(Item)`. -/
def doProcessItem {T : Type} (env : ExecEnv) (topo : Topology) (tid : Nat)
    (op : T → OpResult T) (item : Item T) (st : ExecState T) : ExecState T × Bool :=
  let r := op item.val
  let tld :=
    { st.tld with
      iterations := st.tld.iterations + 1,
      pushBuffer := st.tld.pushBuffer ++ r.pushed,
      ctxLog := st.tld.ctxLog ++ (if env.needsAborts then r.acquired else []) }
  let st1 := { st with tld := tld }
  if r.ok then (commitIteration env st1, true)
  else (abortIterationItem env topo tid item st1, false)

/-- Why a `runQueue` batch ended: the worklist's pop failed, the iteration
limit was reached, a conflict abort ended the dispatch (the `setjmp` handler
returns from `runQueueDispatch`), or the modelling fuel ran out. -/
inductive StopCause where
  | popFailed
  | hitLimit
  | conflictStop
  | fuelOut
deriving DecidableEq, Repr

/-- Result of a `runQueue` batch: the number of started iterations `s.num`,
the final state, and why the loop ended. -/
structure RunRes (T : Type) where
  num : Nat
  st : ExecState T
  cause : StopCause
deriving Repr

/-- `runQueueDispatch<limit>` over the main worklist:
`while ((!limit || s.num < limit) && (s.item = lwl.pop())) { ++s.num;
doProcess(...); }`, with a conflict abort ending the dispatch after
`abortIteration`.  `limit = 0` means no iteration limit. -/
def runQueueMain {T : Type} (env : ExecEnv) (tid : Nat) (op : T → OpResult T)
    (limit : Nat) : Nat → Nat → ExecState T → RunRes T
  | fuel, num, st =>
    if limit ≠ 0 ∧ limit ≤ num then ⟨num, st, StopCause.hitLimit⟩
    else
      match st.wl with
      | [] => ⟨num, st, StopCause.popFailed⟩
      | v :: rest =>
        match fuel with
        | 0 => ⟨num, st, StopCause.fuelOut⟩
        | fuel' + 1 =>
          let st1 := { st with wl := rest }
          let pr := doProcessVal env tid op v st1
          if pr.2 then runQueueMain env tid op limit fuel' (num + 1) pr.1
          else ⟨num + 1, pr.1, StopCause.conflictStop⟩

/-- `runQueueDispatch<limit>` over the calling worker's abort queue
(`*aborted.getQueue()`), popping retry records. -/
def runQueueAborts {T : Type} (env : ExecEnv) (topo : Topology) (tid : Nat)
    (op : T → OpResult T) (limit : Nat) : Nat → Nat → ExecState T → RunRes T
  | fuel, num, st =>
    if limit ≠ 0 ∧ limit ≤ num then ⟨num, st, StopCause.hitLimit⟩
    else
      match st.handler.queues.getD tid [] with
      | [] => ⟨num, st, StopCause.popFailed⟩
      | item :: rest =>
        match fuel with
        | 0 => ⟨num, st, StopCause.fuelOut⟩
        | fuel' + 1 =>
          let st1 := { st with handler := { st.handler with queues := st.handler.queues.set tid rest } }
          let pr := doProcessItem env topo tid op item st1
          if pr.2 then runQueueAborts env topo tid op limit fuel' (num + 1) pr.1
          else ⟨num + 1, pr.1, StopCause.conflictStop⟩

/-- The batch limit chosen in `go`:
`constexpr int __NUM = (needsBreak || isLeader) ? 64 : 0;`. -/
def batchLimit (needsBreak isLeader : Bool) : Nat :=
  if needsBreak || isLeader then 64 else 0

/-- The main-worklist batch run by `go` when aborts are possible or a break
flag is configured: `runQueue<__NUM>(tld, wl)`. -/
def mainBatch {T : Type} (env : ExecEnv) (tid : Nat) (op : T → OpResult T)
    (isLeader : Bool) (fuel : Nat) (st : ExecState T) : RunRes T :=
  runQueueMain env tid op (batchLimit env.needsBreak isLeader) fuel 0 st

/-- `ForEachExecutor::handleAborts`: `runQueue<0>(tld, *aborted.getQueue())`
— the drain of the abort queue runs with no iteration limit. -/
def handleAborts {T : Type} (env : ExecEnv) (topo : Topology) (tid : Nat)
    (op : T → OpResult T) (fuel : Nat) (st : ExecState T) : RunRes T :=
  runQueueAborts env topo tid op 0 fuel 0 st

/-- The body of one round of `go`'s inner do-loop, up to the point where
`term.SignalWorked(didWork)` is called: run the limited main batch and then
the abort-queue drain (when aborts are possible), or the simple unlimited
path otherwise.  Returns the state passed to the termination detector and
the `didWork` flag it is given. -/
def goRound {T : Type} (env : ExecEnv) (topo : Topology) (tid : Nat)
    (op : T → OpResult T) (couldAbort isLeader : Bool) (fuel : Nat)
    (st : ExecState T) : ExecState T × Bool :=
  if couldAbort || env.needsBreak then
    let r := mainBatch env tid op isLeader fuel st
    let didWork := decide (0 < r.num)
    if couldAbort then
      let r2 := handleAborts env topo tid op fuel r.st
      (r2.st, didWork || decide (0 < r2.num))
    else (r.st, didWork)
  else
    let r := runQueueMain env tid op 0 fuel 0 st
    (r.st, decide (0 < r.num))

end Exec

/-- The destination worker of the double policy as a function of the
re-pushed record's retry count `k`, the current worker and the socket
topology: with `k` odd stay local; otherwise move to the midpoint between the
socket leader and self, or from the leader to the leader of socket
`socket / 2`. -/
def doubleDest (topo : Topology) (tid : Nat) (k : Int) : Nat :=
  if k % 2 = 1 then tid
  else if tid ≠ topo.leaderForSocket (topo.socketOf tid) then
    topo.leaderForSocket (topo.socketOf tid) +
      (tid - topo.leaderForSocket (topo.socketOf tid)) / 2
  else
    topo.leaderForSocket (topo.socketOf tid / 2)

/-- Rollback postcondition of an aborted iteration: conflict log released,
conflict counted, push buffer cleared (when pushes are enabled), allocator
reset (when enabled), and no push published to the worklist. -/
def AbortPost {T : Type} (env : ExecEnv) (st st' : ExecState T) : Prop :=
  st'.tld.ctxLog = [] ∧
  st'.tld.conflicts = st.tld.conflicts + 1 ∧
  (env.needsPush = true → st'.tld.pushBuffer = []) ∧
  (env.needsPia = true → st'.tld.allocCount = 0) ∧
  st'.wl = st.wl

/-- Concrete trait flags with every optional feature enabled. -/
def envA : ExecEnv :=
  { needsPush := true, needsAborts := true, needsPia := true, needsBreak := false }

/-- Concrete one-socket topology. -/
def topoA : Topology :=
  ⟨1, fun _ => 0, fun _ => 0⟩

/-- Concrete operator that pushes 9, acquires node 3, and aborts. -/
def opAbortA : Nat → OpResult Nat :=
  fun _ => { pushed := [9], acquired := [3], ok := false }

/-- Concrete operator that pushes `v + 1` and commits. -/
def opCommitA : Nat → OpResult Nat :=
  fun v => { pushed := [v + 1], acquired := [], ok := true }

/-- Concrete executor state: one buffered push, two live allocations, one
logged acquisition, a two-item worklist, an empty abort queue. -/
def stA : ExecState Nat :=
  { tld := { pushBuffer := [1], allocCount := 2, ctxLog := [5],
             iterations := 0, conflicts := 0, pushes := 0 },
    wl := [8, 2],
    handler := { queues := [[]], useBasicPolicy := false } }

/-! ## Theorems -/

/-- C1, counterexample: on a machine with 4 sockets the handler dispatches a
re-pushed retry record through the basic policy (here: worker 1, socket 1,
record lands on worker 0 = leader of socket 0), not through the double policy
as the claim states (which, the retry count being odd, would retain it on
worker 1): the code sets `useBasicPolicy = maxSockets > 2`. -/
theorem abortHandler_dispatch_counterexample :
    AbortHandler.pushItem ⟨4, fun t => t, fun s => s⟩ 1
        (AbortHandler.init ⟨4, fun t => t, fun s => s⟩ 4 : AbortHandler Nat) ⟨7, 1⟩ ≠
      AbortHandler.pushItemClaimed ⟨4, fun t => t, fun s => s⟩ 1
        (AbortHandler.init ⟨4, fun t => t, fun s => s⟩ 4) ⟨7, 1⟩ := by
  decide

/-- C1, amended: `push(v)` wraps `v` with retries = 1 and enqueues it on the
calling worker's local queue; `push(record)` increments the retries field and
dispatches the result to the policy fixed at construction — the basic policy
when the machine has more than 2 sockets and the double policy when it has at
most 2 sockets. -/
theorem abortHandler_push_spec {T : Type} (topo : Topology) (n tid : Nat)
    (s : AbortHandler T) (v : T) (item : Item T)
    (hflag : s.useBasicPolicy = (AbortHandler.init topo n : AbortHandler T).useBasicPolicy) :
    (AbortHandler.pushVal tid s v).queues = pushQ s.queues tid ⟨v, 1⟩ ∧
    (AbortHandler.pushItem topo tid s item).queues =
      (if 2 < topo.maxSockets then
        AbortHandler.basicPolicy topo tid s.queues ⟨item.val, item.retries + 1⟩
      else
        AbortHandler.doublePolicy topo tid s.queues ⟨item.val, item.retries + 1⟩) := by
  refine ⟨rfl, ?_⟩
  simp only [AbortHandler.init] at hflag
  simp only [AbortHandler.pushItem, hflag]
  by_cases h : 2 < topo.maxSockets <;> simp [h]

/-- C1 witness at a concrete input: one socket, machine-wide, so the double
policy is selected; the re-push of `(5, retries 1)` increments to retries 2. -/
theorem abortHandler_push_spec_witness :
    (AbortHandler.init ⟨1, fun _ => 0, fun _ => 0⟩ 2 : AbortHandler Nat).useBasicPolicy =
        (AbortHandler.init ⟨1, fun _ => 0, fun _ => 0⟩ 2 : AbortHandler Nat).useBasicPolicy ∧
      (AbortHandler.pushVal 0 (AbortHandler.init ⟨1, fun _ => 0, fun _ => 0⟩ 2) (5 : Nat)).queues =
        pushQ (AbortHandler.init ⟨1, fun _ => 0, fun _ => 0⟩ 2 : AbortHandler Nat).queues 0 ⟨5, 1⟩ :=
  ⟨rfl,
    (abortHandler_push_spec ⟨1, fun _ => 0, fun _ => 0⟩ 2 0
      (AbortHandler.init ⟨1, fun _ => 0, fun _ => 0⟩ 2) 5 ⟨5, 1⟩ rfl).1⟩

/-- C9: under the double policy, a re-pushed retry record whose retries field
is odd is retained on the current worker's local queue; otherwise a
non-leader sends it to `leader + (tid - leader) / 2` and the leader sends it
to the leader of socket `socket / 2` — `doubleDest`, a deterministic function
of the record's retry count, the current worker's id and the socket
topology. -/
theorem doublePolicy_dest {T : Type} (topo : Topology) (tid : Nat)
    (s : AbortHandler T) (r : Item T) (hflag : s.useBasicPolicy = false) :
    (AbortHandler.pushItem topo tid s r).queues =
      pushQ s.queues (doubleDest topo tid r.retries) ⟨r.val, r.retries + 1⟩ := by
  simp only [AbortHandler.pushItem, hflag, Bool.false_eq_true, if_false,
    AbortHandler.doublePolicy, doubleDest, add_sub_cancel_right]
  by_cases hpar : r.retries % 2 = 1
  · simp [hpar]
  · by_cases hld : tid ≠ topo.leaderForSocket (topo.socketOf tid) <;> simp [hpar, hld]

/-- C9 witness: two sockets of two workers each; worker 3 (socket 1, leader
2) re-pushes a record with retries 2 (even), so it moves to the midpoint
`2 + (3 - 2) / 2 = 2`, the socket leader. -/
theorem doublePolicy_dest_witness :
    (AbortHandler.init ⟨2, fun t => t / 2, fun s => 2 * s⟩ 4 : AbortHandler Nat).useBasicPolicy = false ∧
      (AbortHandler.pushItem ⟨2, fun t => t / 2, fun s => 2 * s⟩ 3
          (AbortHandler.init ⟨2, fun t => t / 2, fun s => 2 * s⟩ 4) ⟨(9 : Nat), 2⟩).queues =
        pushQ (AbortHandler.init ⟨2, fun t => t / 2, fun s => 2 * s⟩ 4 : AbortHandler Nat).queues
          (doubleDest ⟨2, fun t => t / 2, fun s => 2 * s⟩ 3 2) ⟨9, 3⟩ :=
  ⟨rfl,
    doublePolicy_dest ⟨2, fun t => t / 2, fun s => 2 * s⟩ 3
      (AbortHandler.init ⟨2, fun t => t / 2, fun s => 2 * s⟩ 4) ⟨9, 2⟩ rfl⟩

/-- C6: `abortIteration` (for a fresh value and for a retry record) cancels
the conflict context releasing every logged acquisition, increments the
conflict counter, hands the item to the abort handler, clears the push buffer
when pushes are enabled, resets the allocator when enabled, and leaves the
worklist untouched; consequently a `doProcess` whose operator signals a
conflict publishes none of its pushes and ends with an empty push buffer and
a reset allocator. -/
theorem forEach_abort_rollback {T : Type} (env : ExecEnv) (topo : Topology)
    (tid : Nat) (op : T → OpResult T) (v : T) (item : Item T)
    (st stI : ExecState T) :
    AbortPost env st (Exec.abortIterationVal env tid v st) ∧
    (Exec.abortIterationVal env tid v st).handler = AbortHandler.pushVal tid st.handler v ∧
    AbortPost env stI (Exec.abortIterationItem env topo tid item stI) ∧
    (Exec.abortIterationItem env topo tid item stI).handler =
      AbortHandler.pushItem topo tid stI.handler item ∧
    ((op v).ok = false →
      AbortPost env st (Exec.doProcessVal env tid op v st).1 ∧
      (Exec.doProcessVal env tid op v st).1.handler = AbortHandler.pushVal tid st.handler v) := by
  unfold AbortPost Exec.doProcessVal
  by_cases hp : env.needsPush = true <;> by_cases ha : env.needsPia = true <;>
    simp_all [Exec.abortIterationVal, Exec.abortIterationItem]

/-- C6 witness: with all features enabled and the always-aborting operator,
the aborted iteration at value 4 satisfies the rollback postcondition. -/
theorem forEach_abort_rollback_witness :
    (opAbortA 4).ok = false ∧ AbortPost envA stA (Exec.doProcessVal envA 0 opAbortA 4 stA).1 :=
  ⟨rfl, ((forEach_abort_rollback envA topoA 0 opAbortA 4 ⟨7, 1⟩ stA stA).2.2.2.2 rfl).1⟩

/-- `commitIteration` always leaves the push buffer empty when pushes are
enabled. -/
theorem commitIteration_buffer {T : Type} (env : ExecEnv) (st : ExecState T)
    (hpush : env.needsPush = true) :
    (Exec.commitIteration env st).tld.pushBuffer = [] := by
  unfold Exec.commitIteration
  by_cases h0 : st.tld.pushBuffer.length ≠ 0 <;>
    by_cases h2 : env.needsPia = true <;>
    by_cases h3 : env.needsAborts = true <;>
    simp_all [List.length_eq_zero]

/-- A `doProcess` on a fresh value ends with an empty push buffer (commit
flushes it, abort clears it). -/
theorem doProcessVal_buffer {T : Type} (env : ExecEnv) (tid : Nat)
    (op : T → OpResult T) (v : T) (st : ExecState T)
    (hpush : env.needsPush = true) :
    (Exec.doProcessVal env tid op v st).1.tld.pushBuffer = [] := by
  unfold Exec.doProcessVal
  by_cases hok : (op v).ok = true
  · simpa [hok] using commitIteration_buffer env _ hpush
  · simp only [Bool.not_eq_true] at hok
    unfold Exec.abortIterationVal
    by_cases ha : env.needsPia = true <;> simp_all

/-- A `doProcess` on a retry record ends with an empty push buffer. -/
theorem doProcessItem_buffer {T : Type} (env : ExecEnv) (topo : Topology)
    (tid : Nat) (op : T → OpResult T) (item : Item T) (st : ExecState T)
    (hpush : env.needsPush = true) :
    (Exec.doProcessItem env topo tid op item st).1.tld.pushBuffer = [] := by
  unfold Exec.doProcessItem
  by_cases hok : (op item.val).ok = true
  · simpa [hok] using commitIteration_buffer env _ hpush
  · simp only [Bool.not_eq_true] at hok
    unfold Exec.abortIterationItem
    by_cases ha : env.needsPia = true <;> simp_all

/-- A main-worklist batch preserves an empty push buffer. -/
theorem runQueueMain_buffer {T : Type} (env : ExecEnv) (tid : Nat)
    (op : T → OpResult T) (limit : Nat) (hpush : env.needsPush = true) :
    ∀ (fuel num : Nat) (st : ExecState T), st.tld.pushBuffer = [] →
      (Exec.runQueueMain env tid op limit fuel num st).st.tld.pushBuffer = [] := by
  intro fuel
  induction fuel with
  | zero =>
    intro num st h
    rw [Exec.runQueueMain]
    split
    · exact h
    · cases hwl : st.wl <;> simp [hwl, h]
  | succ n ih =>
    intro num st h
    rw [Exec.runQueueMain]
    split
    · exact h
    · cases hwl : st.wl with
      | nil => simpa using h
      | cons v rest =>
        simp only [hwl]
        by_cases hc : (Exec.doProcessVal env tid op v { st with wl := rest }).2 = true
        · simpa [hc] using ih (num + 1) _ (doProcessVal_buffer env tid op v _ hpush)
        · simp only [Bool.not_eq_true] at hc
          simpa [hc] using doProcessVal_buffer env tid op v { st with wl := rest } hpush

/-- An abort-queue drain preserves an empty push buffer. -/
theorem runQueueAborts_buffer {T : Type} (env : ExecEnv) (topo : Topology)
    (tid : Nat) (op : T → OpResult T) (limit : Nat) (hpush : env.needsPush = true) :
    ∀ (fuel num : Nat) (st : ExecState T), st.tld.pushBuffer = [] →
      (Exec.runQueueAborts env topo tid op limit fuel num st).st.tld.pushBuffer = [] := by
  intro fuel
  induction fuel with
  | zero =>
    intro num st h
    rw [Exec.runQueueAborts]
    split
    · exact h
    · cases hq : st.handler.queues.getD tid [] <;> simp [hq, h]
  | succ n ih =>
    intro num st h
    rw [Exec.runQueueAborts]
    split
    · exact h
    · cases hq : st.handler.queues.getD tid [] with
      | nil => simpa using h
      | cons item rest =>
        simp only [hq]
        by_cases hc : (Exec.doProcessItem env topo tid op item
            { st with handler := { st.handler with queues := st.handler.queues.set tid rest } }).2 = true
        · simpa [hc] using ih (num + 1) _ (doProcessItem_buffer env topo tid op item _ hpush)
        · simp only [Bool.not_eq_true] at hc
          simpa [hc] using doProcessItem_buffer env topo tid op item
            { st with handler := { st.handler with queues := st.handler.queues.set tid rest } } hpush

/-- C7: when pushes are enabled, `commitIteration` moves the whole push
buffer into the worklist by one bulk append and clears it, increments the
pushes counter by the buffer's size, then resets the allocator (when enabled)
and commits the conflict context (when conflict detection is enabled); every
buffered item is in the worklist when `commitIteration` returns, and at the
point where the round signals its work status to the termination detector no
push is left in the buffer. -/
theorem forEach_commit_spec {T : Type} (env : ExecEnv) (st : ExecState T)
    (hpush : env.needsPush = true) :
    (Exec.commitIteration env st).wl = st.wl ++ st.tld.pushBuffer ∧
    (Exec.commitIteration env st).tld.pushBuffer = [] ∧
    (Exec.commitIteration env st).tld.pushes = st.tld.pushes + st.tld.pushBuffer.length ∧
    (env.needsPia = true → (Exec.commitIteration env st).tld.allocCount = 0) ∧
    (env.needsAborts = true → (Exec.commitIteration env st).tld.ctxLog = []) ∧
    (∀ v ∈ st.tld.pushBuffer, v ∈ (Exec.commitIteration env st).wl) ∧
    (∀ (topo : Topology) (tid : Nat) (op : T → OpResult T) (couldAbort isLeader : Bool)
        (fuel : Nat), st.tld.pushBuffer = [] →
      (Exec.goRound env topo tid op couldAbort isLeader fuel st).1.tld.pushBuffer = []) := by
  refine ⟨?_, commitIteration_buffer env st hpush, ?_, ?_, ?_, ?_, ?_⟩
  case _ =>
    unfold Exec.commitIteration
    by_cases h0 : st.tld.pushBuffer.length ≠ 0 <;>
      by_cases h2 : env.needsPia = true <;>
      by_cases h3 : env.needsAborts = true <;>
      simp_all [List.length_eq_zero]
  case _ =>
    unfold Exec.commitIteration
    by_cases h0 : st.tld.pushBuffer.length ≠ 0 <;>
      by_cases h2 : env.needsPia = true <;>
      by_cases h3 : env.needsAborts = true <;>
      simp_all [List.length_eq_zero]
  case _ =>
    unfold Exec.commitIteration
    by_cases h0 : st.tld.pushBuffer.length ≠ 0 <;>
      by_cases h2 : env.needsPia = true <;>
      by_cases h3 : env.needsAborts = true <;>
      simp_all [List.length_eq_zero]
  case _ =>
    unfold Exec.commitIteration
    by_cases h0 : st.tld.pushBuffer.length ≠ 0 <;>
      by_cases h2 : env.needsPia = true <;>
      by_cases h3 : env.needsAborts = true <;>
      simp_all [List.length_eq_zero]
  case _ =>
    intro v hv
    have hwl : (Exec.commitIteration env st).wl = st.wl ++ st.tld.pushBuffer := by
      unfold Exec.commitIteration
      by_cases h0 : st.tld.pushBuffer.length ≠ 0 <;>
        by_cases h2 : env.needsPia = true <;>
        by_cases h3 : env.needsAborts = true <;>
        simp_all [List.length_eq_zero]
    rw [hwl]
    exact List.mem_append_right _ hv
  case _ =>
    intro topo tid op couldAbort isLeader fuel hbuf
    unfold Exec.goRound Exec.mainBatch Exec.handleAborts
    by_cases h2 : couldAbort = true
    · by_cases h1 : env.needsBreak = true <;>
        simpa [h2, h1] using runQueueAborts_buffer env topo tid op 0 hpush fuel 0 _
          (runQueueMain_buffer env tid op (Exec.batchLimit env.needsBreak isLeader) hpush
            fuel 0 st hbuf)
    · simp only [Bool.not_eq_true] at h2
      by_cases h1 : env.needsBreak = true
      · simpa [h2, h1] using runQueueMain_buffer env tid op
          (Exec.batchLimit env.needsBreak isLeader) hpush fuel 0 st hbuf
      · simp only [Bool.not_eq_true] at h1
        simpa [h2, h1] using runQueueMain_buffer env tid op 0 hpush fuel 0 st hbuf

/-- C7 witness: a committing iteration's buffered push lands in the worklist. -/
theorem forEach_commit_spec_witness :
    envA.needsPush = true ∧ (Exec.commitIteration envA stA).wl = stA.wl ++ stA.tld.pushBuffer :=
  ⟨rfl, (forEach_commit_spec envA stA rfl).1⟩

/-- With a positive limit, a batch never exceeds it: the loop guard is
`(!limit || s.num < limit) && (s.item = lwl.pop())`. -/
theorem runQueueMain_num_le {T : Type} (env : ExecEnv) (tid : Nat)
    (op : T → OpResult T) (limit : Nat) (hl : limit ≠ 0) :
    ∀ (fuel num : Nat) (st : ExecState T), num ≤ limit →
      (Exec.runQueueMain env tid op limit fuel num st).num ≤ limit := by
  intro fuel
  induction fuel with
  | zero =>
    intro num st h
    rw [Exec.runQueueMain]
    split
    · exact h
    · cases hwl : st.wl <;> simp [hwl, h]
  | succ n ih =>
    intro num st h
    rw [Exec.runQueueMain]
    split
    · exact h
    · rename_i hneg
      have hlt : num < limit := by
        rcases Nat.lt_or_ge num limit with h1 | h1
        · exact h1
        · exact absurd ⟨hl, h1⟩ hneg
      cases hwl : st.wl with
      | nil => simpa using h
      | cons v rest =>
        simp only [hwl]
        by_cases hc : (Exec.doProcessVal env tid op v { st with wl := rest }).2 = true
        · simpa [hc] using ih (num + 1) _ hlt
        · simp only [Bool.not_eq_true] at hc
          simpa [hc] using hlt

/-- With limit 0 the main-worklist loop never stops because of the
iteration count. -/
theorem runQueueMain_no_limit {T : Type} (env : ExecEnv) (tid : Nat)
    (op : T → OpResult T) :
    ∀ (fuel num : Nat) (st : ExecState T),
      (Exec.runQueueMain env tid op 0 fuel num st).cause ≠ Exec.StopCause.hitLimit := by
  intro fuel
  induction fuel with
  | zero =>
    intro num st
    rw [Exec.runQueueMain]
    simp only [ne_eq, not_true_eq_false, false_and, if_false]
    cases hwl : st.wl <;> simp [hwl]
  | succ n ih =>
    intro num st
    rw [Exec.runQueueMain]
    simp only [ne_eq, not_true_eq_false, false_and, if_false]
    cases hwl : st.wl with
    | nil => simp
    | cons v rest =>
      simp only []
      by_cases hc : (Exec.doProcessVal env tid op v { st with wl := rest }).2 = true
      · simpa [hc] using ih (num + 1) _
      · simp only [Bool.not_eq_true] at hc
        simp [hc]

/-- With a positive limit, an abort-queue batch never exceeds it. -/
theorem runQueueAborts_num_le {T : Type} (env : ExecEnv) (topo : Topology)
    (tid : Nat) (op : T → OpResult T) (limit : Nat) (hl : limit ≠ 0) :
    ∀ (fuel num : Nat) (st : ExecState T), num ≤ limit →
      (Exec.runQueueAborts env topo tid op limit fuel num st).num ≤ limit := by
  intro fuel
  induction fuel with
  | zero =>
    intro num st h
    rw [Exec.runQueueAborts]
    split
    · exact h
    · cases hq : st.handler.queues.getD tid [] <;> simp [hq, h]
  | succ n ih =>
    intro num st h
    rw [Exec.runQueueAborts]
    split
    · exact h
    · rename_i hneg
      have hlt : num < limit := by
        rcases Nat.lt_or_ge num limit with h1 | h1
        · exact h1
        · exact absurd ⟨hl, h1⟩ hneg
      cases hq : st.handler.queues.getD tid [] with
      | nil => simpa using h
      | cons item rest =>
        simp only [hq]
        by_cases hc : (Exec.doProcessItem env topo tid op item
            { st with handler := { st.handler with queues := st.handler.queues.set tid rest } }).2 = true
        · simpa [hc] using ih (num + 1) _ hlt
        · simp only [Bool.not_eq_true] at hc
          simpa [hc] using hlt

/-- With limit 0 the abort-queue drain never stops because of the iteration
count, and when it stops because the pop failed the local abort queue is
empty. -/
theorem runQueueAborts_no_limit {T : Type} (env : ExecEnv) (topo : Topology)
    (tid : Nat) (op : T → OpResult T) :
    ∀ (fuel num : Nat) (st : ExecState T),
      (Exec.runQueueAborts env topo tid op 0 fuel num st).cause ≠ Exec.StopCause.hitLimit ∧
      ((Exec.runQueueAborts env topo tid op 0 fuel num st).cause = Exec.StopCause.popFailed →
        (Exec.runQueueAborts env topo tid op 0 fuel num st).st.handler.queues.getD tid [] = []) := by
  intro fuel
  induction fuel with
  | zero =>
    intro num st
    rw [Exec.runQueueAborts]
    simp only [ne_eq, not_true_eq_false, false_and, if_false]
    cases hq : st.handler.queues.getD tid [] with
    | nil =>
      simp only [hq]
      exact ⟨by simp, fun _ => trivial⟩
    | cons item rest => simp [hq]
  | succ n ih =>
    intro num st
    rw [Exec.runQueueAborts]
    simp only [ne_eq, not_true_eq_false, false_and, if_false]
    cases hq : st.handler.queues.getD tid [] with
    | nil =>
      simp only [hq]
      exact ⟨by simp, fun _ => trivial⟩
    | cons item rest =>
      simp only [hq]
      by_cases hc : (Exec.doProcessItem env topo tid op item
          { st with handler := { st.handler with queues := st.handler.queues.set tid rest } }).2 = true
      · simpa [hc] using ih (num + 1) _
      · simp only [Bool.not_eq_true] at hc
        simp [hc]

/-- C8: when conflict aborts are possible or a break flag is configured, the
main-worklist batch runs with limit `(needsBreak || isLeader) ? 64 : 0`, so a
leader's batch (or any batch under a break flag) starts at most 64
iterations, while other workers' batches are unbounded — they never stop on
the iteration count; the abort-queue drain that follows runs with limit 0:
it never stops on the iteration count, and when it returns because the pop
failed the worker's abort queue is empty. -/
theorem forEach_batch_limits {T : Type} (env : ExecEnv) (topo : Topology)
    (tid : Nat) (op : T → OpResult T) (isLeader : Bool) :
    ((env.needsBreak || isLeader) = true →
      ∀ (fuel : Nat) (st : ExecState T),
        (Exec.mainBatch env tid op isLeader fuel st).num ≤ 64) ∧
    ((env.needsBreak || isLeader) = false →
      ∀ (fuel : Nat) (st : ExecState T),
        (Exec.mainBatch env tid op isLeader fuel st).cause ≠ Exec.StopCause.hitLimit) ∧
    (∀ (fuel : Nat) (st : ExecState T),
      (Exec.handleAborts env topo tid op fuel st).cause ≠ Exec.StopCause.hitLimit) ∧
    (∀ (fuel : Nat) (st : ExecState T),
      (Exec.handleAborts env topo tid op fuel st).cause = Exec.StopCause.popFailed →
        (Exec.handleAborts env topo tid op fuel st).st.handler.queues.getD tid [] = []) := by
  refine ⟨?_, ?_, ?_, ?_⟩
  · intro hb fuel st
    unfold Exec.mainBatch
    have h64 : Exec.batchLimit env.needsBreak isLeader = 64 := by
      unfold Exec.batchLimit
      rw [hb]
      rfl
    rw [h64]
    exact runQueueMain_num_le env tid op 64 (by decide) fuel 0 st (by decide)
  · intro hb fuel st
    unfold Exec.mainBatch
    have h0 : Exec.batchLimit env.needsBreak isLeader = 0 := by
      unfold Exec.batchLimit
      rw [hb]
      rfl
    rw [h0]
    exact runQueueMain_no_limit env tid op fuel 0 st
  · intro fuel st
    exact (runQueueAborts_no_limit env topo tid op fuel 0 st).1
  · intro fuel st
    exact (runQueueAborts_no_limit env topo tid op fuel 0 st).2

/-- C8 witness: a leader worker under the all-features environment starts at
most 64 iterations per main batch. -/
theorem forEach_batch_limits_witness :
    (envA.needsBreak || true) = true ∧
      (Exec.mainBatch envA 0 opCommitA true 3 stA).num ≤ 64 :=
  ⟨rfl, (forEach_batch_limits envA topoA 0 opCommitA true).1 rfl 3 stA⟩

/-- C2: the code violates the claim — after seeding the chunked FIFO through
`fill_initial` with the single item 1 (chunk size 2, single worker, no
concurrency), the item sits on the shared chunk list, `pop()` would return
it, yet `empty()` returns `true`: the head test in `empty()` is inverted
(`if (!head.getValue()) return false; return true;`), a false claim of
emptiness that the specification forbids. -/
theorem chunkedFIFO_empty_bug :
    ChunkedFIFO.empty (ChunkedFIFO.fillInitial 2 ChunkedFIFO.initial [(1 : Nat)]) = true ∧
      ChunkedFIFO.toList (ChunkedFIFO.fillInitial 2 ChunkedFIFO.initial [(1 : Nat)]) = [1] ∧
      (ChunkedFIFO.pop (ChunkedFIFO.fillInitial 2 ChunkedFIFO.initial [(1 : Nat)])).1 = some 1 := by
  decide

/-- Taking `back()` of a non-empty vector splits it, as a multiset, into the
taken element and `dropLast`. -/
theorem getLast?_multiset {T : Type} :
    ∀ (l : List T) (v : T), l.getLast? = some v →
      (↑l : Multiset T) = v ::ₘ ↑l.dropLast := by
  intro l
  induction l with
  | nil =>
    intro v h
    simp at h
  | cons x xs ih =>
    intro v h
    cases xs with
    | nil =>
      simp only [List.getLast?_singleton, Option.some.injEq] at h
      subst h
      simp
    | cons y ys =>
      rw [List.getLast?_cons_cons] at h
      have hx := ih v h
      have hd : (x :: y :: ys).dropLast = x :: (y :: ys).dropLast := rfl
      rw [hd]
      calc (↑(x :: y :: ys) : Multiset T) = x ::ₘ ↑(y :: ys) := by simp
        _ = x ::ₘ (v ::ₘ ↑(y :: ys).dropLast) := by rw [hx]
        _ = v ::ₘ (x ::ₘ ↑(y :: ys).dropLast) := Multiset.cons_swap x v _
        _ = v ::ₘ ↑(x :: (y :: ys).dropLast) := by simp

/-- `pushedOf` on a leading push and on a leading pop. -/
theorem pushedOf_push {T : Type} (v : T) (rest : List (WLOp T)) :
    pushedOf (WLOp.push v :: rest) = v ::ₘ pushedOf rest := by
  simp [pushedOf, List.filterMap_cons]

theorem pushedOf_pop {T : Type} (rest : List (WLOp T)) :
    pushedOf (WLOp.pop :: rest) = pushedOf rest := by
  simp [pushedOf, List.filterMap_cons]

/-- LIFO conservation: the items left in the worklist plus the items popped
equal the initial contents plus the items pushed, as multisets. -/
theorem lifo_runOps_conserve {T : Type} :
    ∀ (ops : List (WLOp T)) (s : LIFO T),
      ((LIFO.runOps ops s).1.wl : Multiset T) + ↑(LIFO.runOps ops s).2 =
        ↑s.wl + pushedOf ops := by
  intro ops
  induction ops with
  | nil =>
    intro s
    simp [LIFO.runOps, pushedOf]
  | cons op rest ih =>
    intro s
    cases op with
    | push v =>
      simp only [LIFO.runOps]
      rw [ih (s.push v), pushedOf_push]
      show (↑(s.wl ++ [v]) : Multiset T) + pushedOf rest = ↑s.wl + (v ::ₘ pushedOf rest)
      rw [(Multiset.coe_add s.wl [v]).symm, add_assoc, Multiset.coe_singleton,
        Multiset.singleton_add]
    | pop =>
      simp only [LIFO.runOps, LIFO.pop]
      cases hg : s.wl.getLast? with
      | none =>
        simp only []
        rw [ih s, pushedOf_pop]
      | some v =>
        simp only []
        rw [pushedOf_pop, getLast?_multiset s.wl v hg, ← Multiset.cons_coe,
          Multiset.add_cons, Multiset.cons_add, ih ⟨s.wl.dropLast⟩]

/-- sFIFO conservation. -/
theorem sfifo_runOps_conserve {T : Type} :
    ∀ (ops : List (WLOp T)) (s : sFIFO T),
      ((sFIFO.runOps ops s).1.wl : Multiset T) + ↑(sFIFO.runOps ops s).2 =
        ↑s.wl + pushedOf ops := by
  intro ops
  induction ops with
  | nil =>
    intro s
    simp [sFIFO.runOps, pushedOf]
  | cons op rest ih =>
    intro s
    cases op with
    | push v =>
      simp only [sFIFO.runOps]
      rw [ih (s.push v), pushedOf_push]
      show (↑(s.wl ++ [v]) : Multiset T) + pushedOf rest = ↑s.wl + (v ::ₘ pushedOf rest)
      rw [(Multiset.coe_add s.wl [v]).symm, add_assoc, Multiset.coe_singleton,
        Multiset.singleton_add]
    | pop =>
      simp only [sFIFO.runOps, sFIFO.pop]
      cases hwl : s.wl with
      | nil =>
        simp only []
        rw [ih s, pushedOf_pop]
        simp [hwl]
      | cons v rest2 =>
        simp only []
        rw [pushedOf_pop, ← Multiset.cons_coe, ← Multiset.cons_coe,
          Multiset.add_cons, Multiset.cons_add, ih ⟨rest2⟩]

/-- Draining a LIFO with fuel covering its length pops exactly its contents
(as a multiset) and leaves it empty. -/
theorem lifo_drain_all {T : Type} :
    ∀ (fuel : Nat) (s : LIFO T), s.wl.length ≤ fuel →
      (↑(drainWL LIFO.pop fuel s).1 : Multiset T) = ↑s.wl ∧
      (drainWL LIFO.pop fuel s).2.wl = [] := by
  intro fuel
  induction fuel with
  | zero =>
    intro s h
    have hnil : s.wl = [] := List.length_eq_zero.mp (Nat.le_zero.mp h)
    simp [drainWL, hnil]
  | succ n ih =>
    intro s h
    rw [drainWL]
    cases hg : s.wl.getLast? with
    | none =>
      have hnil : s.wl = [] := by
        cases hwl : s.wl with
        | nil => rfl
        | cons x xs =>
          rw [hwl] at hg
          simp [List.getLast?_concat] at hg
      simp [LIFO.pop, hg, hnil]
    | some v =>
      simp only [LIFO.pop, hg]
      have hne : s.wl ≠ [] := by
        intro hwl
        rw [hwl] at hg
        simp at hg
      have hlen : (⟨s.wl.dropLast⟩ : LIFO T).wl.length ≤ n := by
        have := List.length_dropLast s.wl
        have hpos : 0 < s.wl.length := List.length_pos.mpr hne
        simp only [this]
        omega
      obtain ⟨h1, h2⟩ := ih ⟨s.wl.dropLast⟩ hlen
      refine ⟨?_, h2⟩
      rw [← Multiset.cons_coe, h1, ← getLast?_multiset s.wl v hg]

/-- Draining an sFIFO with fuel covering its length pops exactly its contents
and leaves it empty. -/
theorem sfifo_drain_all {T : Type} :
    ∀ (fuel : Nat) (s : sFIFO T), s.wl.length ≤ fuel →
      (↑(drainWL sFIFO.pop fuel s).1 : Multiset T) = ↑s.wl ∧
      (drainWL sFIFO.pop fuel s).2.wl = [] := by
  intro fuel
  induction fuel with
  | zero =>
    intro s h
    have hnil : s.wl = [] := List.length_eq_zero.mp (Nat.le_zero.mp h)
    simp [drainWL, hnil]
  | succ n ih =>
    intro s h
    rw [drainWL]
    cases hwl : s.wl with
    | nil => simp [sFIFO.pop, hwl]
    | cons v rest =>
      simp only [sFIFO.pop, hwl]
      have hlen : (⟨rest⟩ : sFIFO T).wl.length ≤ n := by
        rw [hwl] at h
        simpa using Nat.lt_succ_iff.mp (Nat.lt_of_lt_of_le (Nat.lt_succ_self _) h)
      obtain ⟨h1, h2⟩ := ih ⟨rest⟩ hlen
      refine ⟨?_, h2⟩
      rw [← Multiset.cons_coe, h1, Multiset.cons_coe]

/-- Splitting an append under the multiset coercion. -/
theorem coe_append {T : Type} (l1 l2 : List T) :
    (↑(l1 ++ l2) : Multiset T) = ↑l1 + ↑l2 :=
  (Multiset.coe_add l1 l2).symm

/-- `ChunkedFIFO::push` adds exactly the pushed value, as a multiset. -/
theorem chunkedFIFO_push_toList {T : Type} (cs : Nat) (s : ChunkedFIFO T) (v : T) :
    (↑(ChunkedFIFO.toList (ChunkedFIFO.push cs s v)) : Multiset T) =
      ↑(ChunkedFIFO.toList s) + ↑[v] := by
  obtain ⟨cur, next, shared⟩ := s
  cases next with
  | none =>
    simp only [ChunkedFIFO.push, ChunkedFIFO.toList, Option.getD_none, Option.getD_some]
    simp only [coe_append, List.nil_append]
    abel
  | some c =>
    by_cases hf : c.length = cs
    · simp only [ChunkedFIFO.push, ChunkedFIFO.pushChunk, ChunkedFIFO.toList, hf, if_true,
        Option.getD_none, Option.getD_some, List.flatten_append, List.flatten_cons,
        List.flatten_nil, List.append_nil, List.nil_append]
      simp only [coe_append]
      abel
    · simp only [ChunkedFIFO.push, ChunkedFIFO.toList, hf, if_false, Option.getD_some]
      simp only [coe_append]
      abel

/-- `ChunkedFIFO::push` keeps shared-list chunks and the producer chunk
non-empty (the moved chunk is full, of positive capacity). -/
theorem chunkedFIFO_push_inv {T : Type} (cs : Nat) (hcs : 0 < cs)
    (s : ChunkedFIFO T) (v : T) (h : ChunkedFIFO.Inv s) :
    ChunkedFIFO.Inv (ChunkedFIFO.push cs s v) := by
  obtain ⟨cur, next, shared⟩ := s
  obtain ⟨h1, h2⟩ := h
  cases next with
  | none =>
    refine ⟨fun c hc => h1 c hc, fun c hc => ?_⟩
    simp only [ChunkedFIFO.push, Option.getD_none] at hc
    simp only [Option.some.injEq] at hc
    subst hc
    simp
  | some c0 =>
    by_cases hf : c0.length = cs
    · refine ⟨fun c hc => ?_, fun c hc => ?_⟩
      · simp only [ChunkedFIFO.push, ChunkedFIFO.pushChunk, hf, if_true] at hc
        rcases List.mem_append.mp hc with hmem | hmem
        · exact h1 c hmem
        · have : c = c0 := List.mem_singleton.mp hmem
          subst this
          intro hnil
          rw [hnil] at hf
          simp at hf
          omega
      · simp only [ChunkedFIFO.push, ChunkedFIFO.pushChunk, hf, if_true,
          Option.getD_none, Option.some.injEq] at hc
        subst hc
        simp
    · refine ⟨fun c hc => ?_, fun c hc => ?_⟩
      · simp only [ChunkedFIFO.push, hf, if_false] at hc
        exact h1 c hc
      · simp only [ChunkedFIFO.push, hf, if_false, Option.getD_some,
          Option.some.injEq] at hc
        subst hc
        simp

/-- A successful `ChunkedFIFO::pop` removes exactly the returned value, as a
multiset, and preserves the reachability invariant. -/
theorem chunkedFIFO_pop_some_spec {T : Type} (s s1 : ChunkedFIFO T) (v : T)
    (hp : ChunkedFIFO.pop s = (some v, s1)) :
    (↑(ChunkedFIFO.toList s) : Multiset T) = ↑(ChunkedFIFO.toList s1) + ↑[v] ∧
    (ChunkedFIFO.Inv s → ChunkedFIFO.Inv s1) := by
  obtain ⟨cur, next, shared⟩ := s
  cases cur with
  | some c =>
    cases c with
    | cons x xs =>
      simp only [ChunkedFIFO.pop, List.isEmpty_cons, Bool.false_eq_true, if_false,
        Prod.mk.injEq, Option.some.injEq] at hp
      obtain ⟨rfl, rfl⟩ := hp
      refine ⟨?_, fun h => ⟨h.1, h.2⟩⟩
      simp only [ChunkedFIFO.toList, Option.getD_some, coe_append, Multiset.cons_coe]
      have hsplit : (↑(x :: xs) : Multiset T) = ↑[x] + ↑xs := coe_append [x] xs
      rw [hsplit]
      abel
    | nil =>
      cases shared with
      | cons r rest =>
        cases r with
        | nil => simp [ChunkedFIFO.pop] at hp
        | cons x xs =>
          simp only [ChunkedFIFO.pop, List.isEmpty_nil, if_true, Prod.mk.injEq,
            Option.some.injEq] at hp
          obtain ⟨rfl, rfl⟩ := hp
          refine ⟨?_, fun h => ⟨fun c hc => h.1 c (List.mem_cons_of_mem _ hc), h.2⟩⟩
          simp only [ChunkedFIFO.toList, Option.getD_some, List.flatten_cons, coe_append]
          have hsplit : (↑(x :: xs) : Multiset T) = ↑[x] + ↑xs := coe_append [x] xs
          rw [hsplit]
          abel
      | nil =>
        cases next with
        | some c =>
          cases c with
          | nil => simp [ChunkedFIFO.pop] at hp
          | cons x xs =>
            simp only [ChunkedFIFO.pop, List.isEmpty_nil, if_true, Prod.mk.injEq,
              Option.some.injEq] at hp
            obtain ⟨rfl, rfl⟩ := hp
            refine ⟨?_, fun h => ⟨h.1, by simp⟩⟩
            simp only [ChunkedFIFO.toList, Option.getD_some, Option.getD_none,
              List.flatten_nil, List.append_nil, coe_append]
            have hsplit : (↑(x :: xs) : Multiset T) = ↑[x] + ↑xs := coe_append [x] xs
            rw [hsplit]
            abel
        | none => simp [ChunkedFIFO.pop] at hp
  | none =>
    cases shared with
    | cons r rest =>
      cases r with
      | nil => simp [ChunkedFIFO.pop] at hp
      | cons x xs =>
        simp only [ChunkedFIFO.pop, Prod.mk.injEq, Option.some.injEq] at hp
        obtain ⟨rfl, rfl⟩ := hp
        refine ⟨?_, fun h => ⟨fun c hc => h.1 c (List.mem_cons_of_mem _ hc), h.2⟩⟩
        simp only [ChunkedFIFO.toList, Option.getD_some, Option.getD_none,
          List.flatten_cons, List.nil_append, coe_append]
        have hsplit : (↑(x :: xs) : Multiset T) = ↑[x] + ↑xs := coe_append [x] xs
        rw [hsplit]
        abel
    | nil =>
      cases next with
      | some c =>
        cases c with
        | nil => simp [ChunkedFIFO.pop] at hp
        | cons x xs =>
          simp only [ChunkedFIFO.pop, Prod.mk.injEq, Option.some.injEq] at hp
          obtain ⟨rfl, rfl⟩ := hp
          refine ⟨?_, fun h => ⟨h.1, by simp⟩⟩
          simp only [ChunkedFIFO.toList, Option.getD_some, Option.getD_none,
            List.flatten_nil, List.append_nil, List.nil_append, coe_append]
          have hsplit : (↑(x :: xs) : Multiset T) = ↑[x] + ↑xs := coe_append [x] xs
          rw [hsplit]
          abel
      | none => simp [ChunkedFIFO.pop] at hp

/-- A failed `ChunkedFIFO::pop` keeps the contents; under the reachability
invariant it happens only when nothing remains, and the invariant is kept. -/
theorem chunkedFIFO_pop_none_spec {T : Type} (s s1 : ChunkedFIFO T)
    (hp : ChunkedFIFO.pop s = (none, s1)) :
    (↑(ChunkedFIFO.toList s1) : Multiset T) = ↑(ChunkedFIFO.toList s) ∧
    (ChunkedFIFO.Inv s → ChunkedFIFO.toList s = [] ∧ ChunkedFIFO.Inv s1) := by
  obtain ⟨cur, next, shared⟩ := s
  cases cur with
  | some c =>
    cases c with
    | cons x xs => simp [ChunkedFIFO.pop] at hp
    | nil =>
      cases shared with
      | cons r rest =>
        cases r with
        | cons x xs => simp [ChunkedFIFO.pop] at hp
        | nil =>
          simp only [ChunkedFIFO.pop, List.isEmpty_nil, if_true, Prod.mk.injEq] at hp
          obtain ⟨-, rfl⟩ := hp
          refine ⟨by simp [ChunkedFIFO.toList], fun h => ?_⟩
          exact absurd rfl (h.1 [] (List.mem_cons_self _ _))
      | nil =>
        cases next with
        | some c =>
          cases c with
          | cons x xs => simp [ChunkedFIFO.pop] at hp
          | nil =>
            simp only [ChunkedFIFO.pop, List.isEmpty_nil, if_true, Prod.mk.injEq] at hp
            obtain ⟨-, rfl⟩ := hp
            refine ⟨by simp [ChunkedFIFO.toList], fun h => ?_⟩
            exact absurd rfl (h.2 [] rfl)
        | none =>
          simp only [ChunkedFIFO.pop, List.isEmpty_nil, if_true, Prod.mk.injEq] at hp
          obtain ⟨-, rfl⟩ := hp
          refine ⟨by simp [ChunkedFIFO.toList], fun _ => ?_⟩
          refine ⟨by simp [ChunkedFIFO.toList], ⟨fun c hc => absurd hc (List.not_mem_nil c), fun c hc => by simp at hc⟩⟩
  | none =>
    cases shared with
    | cons r rest =>
      cases r with
      | cons x xs => simp [ChunkedFIFO.pop] at hp
      | nil =>
        simp only [ChunkedFIFO.pop, Prod.mk.injEq] at hp
        obtain ⟨-, rfl⟩ := hp
        refine ⟨by simp [ChunkedFIFO.toList], fun h => ?_⟩
        exact absurd rfl (h.1 [] (List.mem_cons_self _ _))
    | nil =>
      cases next with
      | some c =>
        cases c with
        | cons x xs => simp [ChunkedFIFO.pop] at hp
        | nil =>
          simp only [ChunkedFIFO.pop, Prod.mk.injEq] at hp
          obtain ⟨-, rfl⟩ := hp
          refine ⟨by simp [ChunkedFIFO.toList], fun h => ?_⟩
          exact absurd rfl (h.2 [] rfl)
      | none =>
        simp only [ChunkedFIFO.pop, Prod.mk.injEq] at hp
        obtain ⟨-, rfl⟩ := hp
        refine ⟨by simp [ChunkedFIFO.toList], fun _ => ?_⟩
        refine ⟨by simp [ChunkedFIFO.toList], ⟨fun c hc => absurd hc (List.not_mem_nil c), fun c hc => by simp at hc⟩⟩

/-- ChunkedFIFO conservation over any push/pop sequence, together with
preservation of the reachability invariant. -/
theorem chunkedFIFO_runOps_conserve {T : Type} (cs : Nat) (hcs : 0 < cs) :
    ∀ (ops : List (WLOp T)) (s : ChunkedFIFO T), ChunkedFIFO.Inv s →
      ((↑(ChunkedFIFO.toList (ChunkedFIFO.runOps cs ops s).1) : Multiset T) +
          ↑(ChunkedFIFO.runOps cs ops s).2 =
        ↑(ChunkedFIFO.toList s) + pushedOf ops) ∧
      ChunkedFIFO.Inv (ChunkedFIFO.runOps cs ops s).1 := by
  intro ops
  induction ops with
  | nil =>
    intro s h
    refine ⟨?_, by simpa [ChunkedFIFO.runOps] using h⟩
    simp [ChunkedFIFO.runOps, pushedOf]
  | cons op rest ih =>
    intro s h
    cases op with
    | push v =>
      simp only [ChunkedFIFO.runOps]
      obtain ⟨hc, hi⟩ := ih (ChunkedFIFO.push cs s v) (chunkedFIFO_push_inv cs hcs s v h)
      refine ⟨?_, hi⟩
      rw [hc, chunkedFIFO_push_toList cs s v, pushedOf_push, add_assoc,
        Multiset.coe_singleton, Multiset.singleton_add]
    | pop =>
      simp only [ChunkedFIFO.runOps]
      cases hp : ChunkedFIFO.pop s with
      | mk o s1 =>
        cases o with
        | none =>
          simp only [hp]
          obtain ⟨hm, _⟩ := chunkedFIFO_pop_none_spec s s1 hp
          obtain ⟨hc, hi⟩ := ih s1 ((chunkedFIFO_pop_none_spec s s1 hp).2 h).2
          refine ⟨?_, hi⟩
          rw [hc, hm, pushedOf_pop]
        | some v =>
          simp only [hp]
          obtain ⟨hm, hinv1⟩ := chunkedFIFO_pop_some_spec s s1 v hp
          obtain ⟨hc, hi⟩ := ih s1 (hinv1 h)
          refine ⟨?_, hi⟩
          rw [pushedOf_pop, ← Multiset.cons_coe, Multiset.add_cons, hc, hm,
            ← Multiset.singleton_add, Multiset.coe_singleton]
          abel

/-- Draining a chunked FIFO that satisfies the reachability invariant, with
fuel covering its item count, pops exactly its contents and leaves it
empty. -/
theorem chunkedFIFO_drain_all {T : Type} :
    ∀ (fuel : Nat) (s : ChunkedFIFO T), ChunkedFIFO.Inv s →
      (ChunkedFIFO.toList s).length ≤ fuel →
      (↑(drainWL ChunkedFIFO.pop fuel s).1 : Multiset T) = ↑(ChunkedFIFO.toList s) ∧
      ChunkedFIFO.toList (drainWL ChunkedFIFO.pop fuel s).2 = [] := by
  intro fuel
  induction fuel with
  | zero =>
    intro s _ h
    have hnil : ChunkedFIFO.toList s = [] := List.length_eq_zero.mp (Nat.le_zero.mp h)
    simp [drainWL, hnil]
  | succ n ih =>
    intro s hinv h
    rw [drainWL]
    cases hp : ChunkedFIFO.pop s with
    | mk o s1 =>
      cases o with
      | none =>
        obtain ⟨hm, hrest⟩ := chunkedFIFO_pop_none_spec s s1 hp
        obtain ⟨hempty, _⟩ := hrest hinv
        have h1 : ChunkedFIFO.toList s1 = [] := by
          rw [hempty] at hm
          exact (Multiset.coe_eq_zero _).mp (by simpa using hm)
        simp only []
        exact ⟨by rw [hempty], h1⟩
      | some v =>
        obtain ⟨hm, hinv1f⟩ := chunkedFIFO_pop_some_spec s s1 v hp
        have hinv1 := hinv1f hinv
        have hlen1 : (ChunkedFIFO.toList s1).length ≤ n := by
          have hcard := congrArg Multiset.card hm
          simp only [Multiset.card_add] at hcard
          have hc1 : Multiset.card (↑(ChunkedFIFO.toList s) : Multiset T) =
              (ChunkedFIFO.toList s).length := rfl
          have hc2 : Multiset.card (↑(ChunkedFIFO.toList s1) : Multiset T) =
              (ChunkedFIFO.toList s1).length := rfl
          have hc3 : Multiset.card (↑[v] : Multiset T) = 1 := rfl
          rw [hc1, hc2, hc3] at hcard
          omega
        obtain ⟨h1, h2⟩ := ih s1 hinv1 hlen1
        simp only []
        refine ⟨?_, h2⟩
        rw [← Multiset.cons_coe, h1, hm, ← Multiset.singleton_add, Multiset.coe_singleton]
        abel

/-- C5: for each of the LIFO, the deque FIFO and the chunked FIFO operated
by a single worker starting empty, after any interleaved sequence of pushes
and pops followed by popping until failure, the multiset of all successfully
popped items equals the multiset of pushed items, and the worklist is left
empty (so the next pop reports failure). -/
theorem worklists_multiset_roundtrip {T : Type} (ops : List (WLOp T)) (cs : Nat)
    (hcs : 0 < cs) :
    (↑(LIFO.runOps ops ⟨[]⟩).2 +
        ↑(drainWL LIFO.pop (LIFO.runOps ops (⟨[]⟩ : LIFO T)).1.wl.length
            (LIFO.runOps ops ⟨[]⟩).1).1 = pushedOf ops ∧
      (drainWL LIFO.pop (LIFO.runOps ops (⟨[]⟩ : LIFO T)).1.wl.length
          (LIFO.runOps ops ⟨[]⟩).1).2.wl = []) ∧
    (↑(sFIFO.runOps ops ⟨[]⟩).2 +
        ↑(drainWL sFIFO.pop (sFIFO.runOps ops (⟨[]⟩ : sFIFO T)).1.wl.length
            (sFIFO.runOps ops ⟨[]⟩).1).1 = pushedOf ops ∧
      (drainWL sFIFO.pop (sFIFO.runOps ops (⟨[]⟩ : sFIFO T)).1.wl.length
          (sFIFO.runOps ops ⟨[]⟩).1).2.wl = []) ∧
    (↑(ChunkedFIFO.runOps cs ops ChunkedFIFO.initial).2 +
        ↑(drainWL ChunkedFIFO.pop
            (ChunkedFIFO.toList (ChunkedFIFO.runOps cs ops
              (ChunkedFIFO.initial : ChunkedFIFO T)).1).length
            (ChunkedFIFO.runOps cs ops ChunkedFIFO.initial).1).1 = pushedOf ops ∧
      ChunkedFIFO.toList (drainWL ChunkedFIFO.pop
          (ChunkedFIFO.toList (ChunkedFIFO.runOps cs ops
            (ChunkedFIFO.initial : ChunkedFIFO T)).1).length
          (ChunkedFIFO.runOps cs ops ChunkedFIFO.initial).1).2 = []) := by
  refine ⟨⟨?_, ?_⟩, ⟨?_, ?_⟩, ⟨?_, ?_⟩⟩
  case _ =>
    obtain ⟨hd, -⟩ := lifo_drain_all (LIFO.runOps ops (⟨[]⟩ : LIFO T)).1.wl.length
      (LIFO.runOps ops ⟨[]⟩).1 (le_refl _)
    rw [hd, add_comm]
    have := lifo_runOps_conserve ops (⟨[]⟩ : LIFO T)
    simpa using this
  case _ =>
    exact (lifo_drain_all _ _ (le_refl _)).2
  case _ =>
    obtain ⟨hd, -⟩ := sfifo_drain_all (sFIFO.runOps ops (⟨[]⟩ : sFIFO T)).1.wl.length
      (sFIFO.runOps ops ⟨[]⟩).1 (le_refl _)
    rw [hd, add_comm]
    have := sfifo_runOps_conserve ops (⟨[]⟩ : sFIFO T)
    simpa using this
  case _ =>
    exact (sfifo_drain_all _ _ (le_refl _)).2
  case _ =>
    have hinv0 : ChunkedFIFO.Inv (ChunkedFIFO.initial : ChunkedFIFO T) :=
      ⟨fun c hc => absurd hc (List.not_mem_nil c), fun c hc => by simp [ChunkedFIFO.initial] at hc⟩
    obtain ⟨hd, -⟩ := chunkedFIFO_drain_all
      (ChunkedFIFO.toList (ChunkedFIFO.runOps cs ops (ChunkedFIFO.initial : ChunkedFIFO T)).1).length
      (ChunkedFIFO.runOps cs ops ChunkedFIFO.initial).1
      ((chunkedFIFO_runOps_conserve cs hcs ops ChunkedFIFO.initial hinv0).2) (le_refl _)
    rw [hd, add_comm]
    have := (chunkedFIFO_runOps_conserve cs hcs ops ChunkedFIFO.initial hinv0).1
    simpa [ChunkedFIFO.initial, ChunkedFIFO.toList] using this
  case _ =>
    have hinv0 : ChunkedFIFO.Inv (ChunkedFIFO.initial : ChunkedFIFO T) :=
      ⟨fun c hc => absurd hc (List.not_mem_nil c), fun c hc => by simp [ChunkedFIFO.initial] at hc⟩
    exact (chunkedFIFO_drain_all _ _
      ((chunkedFIFO_runOps_conserve cs hcs ops ChunkedFIFO.initial hinv0).2) (le_refl _)).2

/-- C5 witness: pushes of 1, 2, 3 interleaved with one pop, then draining,
recover exactly the pushed multiset in all three worklists (chunk size 2). -/
theorem worklists_multiset_roundtrip_witness :
    0 < 2 ∧
      (↑(LIFO.runOps [WLOp.push 1, WLOp.push 2, WLOp.pop, WLOp.push 3] ⟨[]⟩).2 +
          ↑(drainWL LIFO.pop
              (LIFO.runOps [WLOp.push 1, WLOp.push 2, WLOp.pop, WLOp.push 3]
                (⟨[]⟩ : LIFO Nat)).1.wl.length
              (LIFO.runOps [WLOp.push 1, WLOp.push 2, WLOp.pop, WLOp.push 3] ⟨[]⟩).1).1 =
        pushedOf [WLOp.push 1, WLOp.push 2, WLOp.pop, WLOp.push 3]) :=
  ⟨by decide,
    ((worklists_multiset_roundtrip [WLOp.push 1, WLOp.push 2, WLOp.pop, WLOp.push 3] 2
      (by decide)).1).1⟩

/-- `getD` after `set` at the written position. -/
theorem getD_set_self {T : Type} (l : List (List T)) (i : Nat) (c : List T)
    (h : i < l.length) : (l.set i c).getD i [] = c := by
  simp [List.getD, List.getElem?_set_self, h]

/-- `getD` after `set` at another position. -/
theorem getD_set_other {T : Type} (l : List (List T)) (i j : Nat) (c : List T)
    (h : j ≠ i) : (l.set i c).getD j [] = l.getD j [] := by
  simp only [List.getD, List.get?_eq_getElem?]
  rw [List.getElem?_set_ne (fun he => h he.symm)]

/-- `getD` on a replicated list of empty buckets. -/
theorem getD_replicate_nil {T : Type} (n i : Nat) :
    (List.replicate n ([] : List T)).getD i [] = [] := by
  simp only [List.getD, List.get?_eq_getElem?, List.getElem?_replicate]
  split <;> rfl

/-- A failed bucket scan means every bucket in the scanned window is
empty. -/
theorem scanFrom_none_spec {T : Type} (data : List (List T)) :
    ∀ (fuel i : Nat), OrderedByIntegerMetric.scanFrom data i fuel = none →
      ∀ k, i ≤ k → k < i + fuel → data.getD k [] = [] := by
  intro fuel
  induction fuel with
  | zero =>
    intro i _ k hik hk
    omega
  | succ n ih =>
    intro i hscan k hik hk
    rw [OrderedByIntegerMetric.scanFrom] at hscan
    cases hb : data.getD i [] with
    | cons x xs =>
      rw [hb] at hscan
      simp at hscan
    | nil =>
      rw [hb] at hscan
      simp only [] at hscan
      by_cases hki : k = i
      · rw [hki]
        exact hb
      · exact ih (i + 1) hscan k (by omega) (by omega)

/-- A successful bucket scan returns the first non-empty bucket at or after
the start position: its index, its front item, and the buckets with that item
removed. -/
theorem scanFrom_some_spec {T : Type} (data : List (List T)) :
    ∀ (fuel i j : Nat) (x : T) (d : List (List T)),
      OrderedByIntegerMetric.scanFrom data i fuel = some (j, x, d) →
      i ≤ j ∧ j < i + fuel ∧ (∀ k, i ≤ k → k < j → data.getD k [] = []) ∧
      ∃ xs, data.getD j [] = x :: xs ∧ d = data.set j xs := by
  intro fuel
  induction fuel with
  | zero =>
    intro i j x d hscan
    rw [OrderedByIntegerMetric.scanFrom] at hscan
    simp at hscan
  | succ n ih =>
    intro i j x d hscan
    rw [OrderedByIntegerMetric.scanFrom] at hscan
    cases hb : data.getD i [] with
    | cons y ys =>
      rw [hb] at hscan
      simp only [Option.some.injEq, Prod.mk.injEq] at hscan
      obtain ⟨rfl, rfl, rfl⟩ := hscan
      exact ⟨le_refl _, by omega, fun k h1 h2 => absurd h1 (by omega), ys, hb, rfl⟩
    | nil =>
      rw [hb] at hscan
      simp only [] at hscan
      obtain ⟨h1, h2, h3, xs, h4, h5⟩ := ih (i + 1) j x d hscan
      refine ⟨by omega, by omega, fun k hik hkj => ?_, xs, h4, h5⟩
      by_cases hki : k = i
      · rw [hki]
        exact hb
      · exact h3 k (by omega) hkj

/-- A successful OBIM `pop` under the invariant: the invariant is preserved,
the popped item's index equals the new cursor, and the cursor never moves
backward. -/
theorem obim_pop_some_spec {T : Type} (I : T → Nat)
    (s s1 : OrderedByIntegerMetric T) (v : T)
    (hinv : OrderedByIntegerMetric.Inv I s)
    (hp : OrderedByIntegerMetric.pop s = (some v, s1)) :
    OrderedByIntegerMetric.Inv I s1 ∧ I v = s1.cursor ∧ s.cursor ≤ s1.cursor := by
  obtain ⟨hlen, hpos, hbelow, hdata⟩ := hinv
  rw [OrderedByIntegerMetric.pop] at hp
  cases hcb : s.data.getD s.cursor [] with
  | cons x xs =>
    rw [hcb] at hp
    simp only [Prod.mk.injEq, Option.some.injEq] at hp
    obtain ⟨rfl, rfl⟩ := hp
    have hx := hdata s.cursor x (by rw [OrderedByIntegerMetric.bucketAt, hcb]; exact List.mem_cons_self _ _)
    have hcurlt : s.cursor < s.data.length := by
      rw [hlen]
      exact hx.2
    refine ⟨⟨by simpa using hlen, hpos, ?_, ?_⟩, hx.1, le_refl _⟩
    · intro j hj
      have hj2 : j < s.cursor := hj
      rw [OrderedByIntegerMetric.bucketAt]
      simp only []
      rw [getD_set_other s.data s.cursor j xs (by omega)]
      exact hbelow j hj2
    · intro i w hw
      rw [OrderedByIntegerMetric.bucketAt] at hw
      simp only [] at hw
      by_cases hic : i = s.cursor
      · rw [hic] at hw ⊢
        rw [getD_set_self s.data s.cursor xs hcurlt] at hw
        exact hdata s.cursor w
          (by rw [OrderedByIntegerMetric.bucketAt, hcb]; exact List.mem_cons_of_mem _ hw)
      · rw [getD_set_other s.data s.cursor i xs hic] at hw
        exact hdata i w hw
  | nil =>
    rw [hcb] at hp
    cases hs : OrderedByIntegerMetric.scanFrom s.data 0 s.size with
    | none =>
      rw [hs] at hp
      simp at hp
    | some r =>
      obtain ⟨j, x, d⟩ := r
      rw [hs] at hp
      simp only [Prod.mk.injEq, Option.some.injEq] at hp
      obtain ⟨rfl, rfl⟩ := hp
      obtain ⟨-, hjlt, hkempty, xs, hbj, rfl⟩ := scanFrom_some_spec s.data s.size 0 j x d hs
      have hx := hdata j x (by rw [OrderedByIntegerMetric.bucketAt, hbj]; exact List.mem_cons_self _ _)
      have hjlen : j < s.data.length := by
        rw [hlen]
        exact hx.2
      have hcurle : s.cursor ≤ j := by
        by_contra hlt
        have := hbelow j (by omega)
        rw [OrderedByIntegerMetric.bucketAt, hbj] at this
        simp at this
      refine ⟨⟨by simpa using hlen, hpos, ?_, ?_⟩, hx.1, hcurle⟩
      · intro k hk
        have hk2 : k < j := hk
        rw [OrderedByIntegerMetric.bucketAt]
        simp only []
        rw [getD_set_other s.data j k xs (by omega)]
        exact hkempty k (by omega) hk2
      · intro i w hw
        rw [OrderedByIntegerMetric.bucketAt] at hw
        simp only [] at hw
        by_cases hij : i = j
        · rw [hij] at hw ⊢
          rw [getD_set_self s.data j xs hjlen] at hw
          exact hdata j w
            (by rw [OrderedByIntegerMetric.bucketAt, hbj]; exact List.mem_cons_of_mem _ hw)
        · rw [getD_set_other s.data j i xs hij] at hw
          exact hdata i w hw

/-- A failed OBIM `pop` happens exactly when every bucket is empty, and it
resets the cursor to 0. -/
theorem obim_pop_none_spec {T : Type}
    (s s1 : OrderedByIntegerMetric T) (hlen : s.data.length = s.size)
    (hp : OrderedByIntegerMetric.pop s = (none, s1)) :
    (∀ i, s.bucketAt i = []) ∧ s1 = { s with cursor := 0 } := by
  rw [OrderedByIntegerMetric.pop] at hp
  cases hcb : s.data.getD s.cursor [] with
  | cons x xs =>
    rw [hcb] at hp
    simp at hp
  | nil =>
    rw [hcb] at hp
    cases hs : OrderedByIntegerMetric.scanFrom s.data 0 s.size with
    | some r =>
      obtain ⟨j, x, d⟩ := r
      rw [hs] at hp
      simp at hp
    | none =>
      rw [hs] at hp
      simp only [Prod.mk.injEq] at hp
      obtain ⟨-, rfl⟩ := hp
      refine ⟨fun i => ?_, rfl⟩
      by_cases hi : i < s.size
      · exact scanFrom_none_spec s.data s.size 0 hs i (Nat.zero_le _) (by omega)
      · rw [OrderedByIntegerMetric.bucketAt]
        have hge : s.data.length ≤ i := by omega
        simp [List.getD, List.get?_eq_getElem?, List.getElem?_eq_none hge]

/-- OBIM `push` of an in-range item preserves the invariant and the bucket
count. -/
theorem obim_push_inv {T : Type} (I : T → Nat)
    (s : OrderedByIntegerMetric T) (v : T)
    (hinv : OrderedByIntegerMetric.Inv I s) (hv : I v < s.size) :
    OrderedByIntegerMetric.Inv I (OrderedByIntegerMetric.push I s v) ∧
      (OrderedByIntegerMetric.push I s v).size = s.size := by
  obtain ⟨hlen, hpos, hbelow, hdata⟩ := hinv
  have hidx : min (I v) (s.size - 1) = I v := Nat.min_eq_left (by omega)
  have hd : (OrderedByIntegerMetric.push I s v).data =
      s.data.set (I v) (s.data.getD (I v) [] ++ [v]) := by
    simp [OrderedByIntegerMetric.push, hidx]
  have hc : (OrderedByIntegerMetric.push I s v).cursor =
      if I v < s.cursor then I v else s.cursor := by
    simp [OrderedByIntegerMetric.push, hidx]
  have hsz : (OrderedByIntegerMetric.push I s v).size = s.size := by
    simp [OrderedByIntegerMetric.push]
  have hvlen : I v < s.data.length := by omega
  refine ⟨⟨by rw [hd, hsz]; simpa using hlen, by rw [hsz]; exact hpos, ?_, ?_⟩, hsz⟩
  · intro j hj
    rw [hc] at hj
    rw [OrderedByIntegerMetric.bucketAt, hd]
    by_cases hcase : I v < s.cursor
    · rw [if_pos hcase] at hj
      rw [getD_set_other s.data (I v) j _ (by omega)]
      exact hbelow j (by omega)
    · rw [if_neg hcase] at hj
      rw [getD_set_other s.data (I v) j _ (by omega)]
      exact hbelow j hj
  · intro i w hw
    rw [OrderedByIntegerMetric.bucketAt, hd] at hw
    by_cases hi : i = I v
    · rw [hi] at hw ⊢
      rw [getD_set_self s.data (I v) _ hvlen] at hw
      rw [hsz]
      rcases List.mem_append.mp hw with hmem | hmem
      · exact hdata (I v) w hmem
      · have : w = v := List.mem_singleton.mp hmem
        subst this
        exact ⟨rfl, hv⟩
    · rw [getD_set_other s.data (I v) i _ hi] at hw
      rw [hsz]
      exact hdata i w hw

/-- Folding in-range pushes preserves the invariant and the bucket count. -/
theorem obim_pushAll_inv {T : Type} (I : T → Nat) :
    ∀ (pushes : List T) (s : OrderedByIntegerMetric T),
      OrderedByIntegerMetric.Inv I s → (∀ v ∈ pushes, I v < s.size) →
      OrderedByIntegerMetric.Inv I (pushes.foldl (OrderedByIntegerMetric.push I) s) ∧
        (pushes.foldl (OrderedByIntegerMetric.push I) s).size = s.size := by
  intro pushes
  induction pushes with
  | nil =>
    intro s h _
    exact ⟨h, rfl⟩
  | cons v rest ih =>
    intro s h hin
    simp only [List.foldl_cons]
    obtain ⟨h1, hsz⟩ :=
      obim_push_inv I s v h (hin v (List.mem_cons_self _ _))
    obtain ⟨h2, hsz2⟩ := ih (OrderedByIntegerMetric.push I s v) h1
      (fun w hw => by rw [hsz]; exact hin w (List.mem_cons_of_mem _ hw))
    exact ⟨h2, by rw [hsz2, hsz]⟩

/-- The freshly constructed OBIM satisfies the invariant. -/
theorem obim_init_inv {T : Type} (I : T → Nat) (range : Nat) :
    OrderedByIntegerMetric.Inv I (OrderedByIntegerMetric.init range : OrderedByIntegerMetric T) := by
  refine ⟨by simp [OrderedByIntegerMetric.init], by simp [OrderedByIntegerMetric.init], ?_, ?_⟩
  · intro j hj
    simp [OrderedByIntegerMetric.init] at hj
  · intro i w hw
    rw [OrderedByIntegerMetric.bucketAt] at hw
    simp only [OrderedByIntegerMetric.init] at hw
    rw [getD_replicate_nil] at hw
    simp at hw

/-- Draining an OBIM that satisfies the invariant yields items whose indices
are at least the cursor, in weakly increasing order. -/
theorem obim_drain_le {T : Type} (I : T → Nat) :
    ∀ (fuel : Nat) (s : OrderedByIntegerMetric T), OrderedByIntegerMetric.Inv I s →
      (∀ w ∈ (drainWL OrderedByIntegerMetric.pop fuel s).1, s.cursor ≤ I w) ∧
      List.Sorted (· ≤ ·) (List.map I (drainWL OrderedByIntegerMetric.pop fuel s).1) := by
  intro fuel
  induction fuel with
  | zero =>
    intro s _
    simp [drainWL]
  | succ n ih =>
    intro s hinv
    rw [drainWL]
    cases hp : OrderedByIntegerMetric.pop s with
    | mk o s1 =>
      cases o with
      | none => simp
      | some v =>
        obtain ⟨hinv1, hIv, hle⟩ := obim_pop_some_spec I s s1 v hinv hp
        obtain ⟨h1, h2⟩ := ih s1 hinv1
        simp only []
        constructor
        · intro w hw
          rcases List.mem_cons.mp hw with rfl | hw2
          · omega
          · exact le_trans hle (h1 w hw2)
        · rw [List.map_cons, List.sorted_cons]
          refine ⟨fun b hb => ?_, h2⟩
          obtain ⟨w, hw, rfl⟩ := List.mem_map.mp hb
          rw [hIv]
          exact h1 w hw

/-- C3 counterexample: with OBIM range 1 (two buckets) both indices 5 and 3
are clamped into the top bucket, so pushing items with indices `[5, 3]` and
draining yields the index sequence `5, 3`, which is not weakly increasing —
the claim fails for indices exceeding the bucket range. -/
theorem obim_drain_not_sorted_counterexample :
    (drainWL OrderedByIntegerMetric.pop 3
        ([5, 3].foldl (OrderedByIntegerMetric.push id)
          (OrderedByIntegerMetric.init 1))).1 = [5, 3] ∧
      ¬ List.Sorted (· ≤ ·) (List.map id (drainWL OrderedByIntegerMetric.pop 3
        ([5, 3].foldl (OrderedByIntegerMetric.push id)
          (OrderedByIntegerMetric.init 1))).1) := by
  constructor
  · decide
  · decide

/-- C3 (amended): for an OBIM used by a single worker, after any sequence of
pushes whose indices are all within the bucket range (`Indexer(v) < size`),
repeatedly popping yields the items' indices in weakly increasing order; in
particular, pushing items with indices `[5, 3, 8, 1, 4]` (range 8) and
draining yields the index sequence `1, 3, 4, 5, 8`. -/
theorem obim_drain_sorted {T : Type} (I : T → Nat) (range : Nat)
    (pushes : List T) (fuel : Nat) (hin : ∀ v ∈ pushes, I v < range + 1) :
    List.Sorted (· ≤ ·) (List.map I (drainWL OrderedByIntegerMetric.pop fuel
        (pushes.foldl (OrderedByIntegerMetric.push I)
          (OrderedByIntegerMetric.init range))).1) ∧
    (drainWL OrderedByIntegerMetric.pop 6
        ([5, 3, 8, 1, 4].foldl (OrderedByIntegerMetric.push id)
          (OrderedByIntegerMetric.init 8))).1 = [1, 3, 4, 5, 8] := by
  constructor
  · have hinv0 := obim_init_inv I range
    have hsz : (OrderedByIntegerMetric.init range : OrderedByIntegerMetric T).size =
        range + 1 := rfl
    obtain ⟨hinv, -⟩ := obim_pushAll_inv I pushes _ hinv0
      (fun v hv => by rw [hsz]; exact hin v hv)
    exact (obim_drain_le I fuel _ hinv).2
  · decide

/-- C3 witness: the seed `[5, 3, 8, 1, 4]` is within range 8, and the drained
index sequence is sorted. -/
theorem obim_drain_sorted_witness :
    (∀ v ∈ [5, 3, 8, 1, 4], id v < 8 + 1) ∧
      List.Sorted (· ≤ ·) (List.map id (drainWL OrderedByIntegerMetric.pop 6
        ([5, 3, 8, 1, 4].foldl (OrderedByIntegerMetric.push id)
          (OrderedByIntegerMetric.init 8))).1) :=
  ⟨by decide, (obim_drain_sorted id 8 [5, 3, 8, 1, 4] 6 (by decide)).1⟩

/-- C4: OBIM `push` routes to bucket `min(Indexer(v), size-1)` and lowers the
cursor exactly when the target is below it; `pop` first tries the cursor's
bucket, on failure scans buckets in ascending order from index 0 and returns
the first bucket's front item with the cursor moved there, and returns no
item — with the cursor reset to 0 — exactly when every bucket is empty. -/
theorem obim_push_pop_characterization {T : Type} (I : T → Nat)
    (s : OrderedByIntegerMetric T) (v : T) (hlen : s.data.length = s.size) :
    ((OrderedByIntegerMetric.push I s v).data =
        s.data.set (min (I v) (s.size - 1))
          (s.bucketAt (min (I v) (s.size - 1)) ++ [v]) ∧
      (OrderedByIntegerMetric.push I s v).cursor =
        if min (I v) (s.size - 1) < s.cursor then min (I v) (s.size - 1)
        else s.cursor) ∧
    (∀ s1, OrderedByIntegerMetric.pop s = (none, s1) →
      (∀ i, s.bucketAt i = []) ∧ s1 = { s with cursor := 0 }) ∧
    (∀ w s1, OrderedByIntegerMetric.pop s = (some w, s1) →
      (∃ xs, s.bucketAt s.cursor = w :: xs ∧
          s1 = { s with data := s.data.set s.cursor xs }) ∨
      (s.bucketAt s.cursor = [] ∧ ∃ i xs, (∀ k, k < i → s.bucketAt k = []) ∧
          s.bucketAt i = w :: xs ∧
          s1 = { s with data := s.data.set i xs, cursor := i })) := by
  refine ⟨⟨rfl, rfl⟩, fun s1 hp => obim_pop_none_spec s s1 hlen hp, ?_⟩
  intro w s1 hp
  rw [OrderedByIntegerMetric.pop] at hp
  cases hcb : s.data.getD s.cursor [] with
  | cons x xs =>
    rw [hcb] at hp
    simp only [Prod.mk.injEq, Option.some.injEq] at hp
    obtain ⟨rfl, rfl⟩ := hp
    left
    exact ⟨xs, by rw [OrderedByIntegerMetric.bucketAt, hcb], rfl⟩
  | nil =>
    rw [hcb] at hp
    cases hs : OrderedByIntegerMetric.scanFrom s.data 0 s.size with
    | none =>
      rw [hs] at hp
      simp at hp
    | some r =>
      obtain ⟨j, x, d⟩ := r
      rw [hs] at hp
      simp only [Prod.mk.injEq, Option.some.injEq] at hp
      obtain ⟨rfl, rfl⟩ := hp
      right
      obtain ⟨-, -, hkempty, xs, hbj, rfl⟩ := scanFrom_some_spec s.data s.size 0 j x d hs
      refine ⟨by rw [OrderedByIntegerMetric.bucketAt, hcb], j, xs,
        fun k hk => ?_, by rw [OrderedByIntegerMetric.bucketAt, hbj], rfl⟩
      rw [OrderedByIntegerMetric.bucketAt]
      exact hkempty k (Nat.zero_le _) hk

/-- C4 witness: on a three-bucket OBIM holding 7 in bucket 1, `pop` misses
the cursor-0 bucket, scans, and returns 7 moving the cursor to 1; `push`
routes 9 (clamped to bucket 2) without lowering the cursor. -/
theorem obim_push_pop_characterization_witness :
    ([7].foldl (OrderedByIntegerMetric.push id)
        (OrderedByIntegerMetric.init 2)).data.length =
      ([7].foldl (OrderedByIntegerMetric.push id)
        (OrderedByIntegerMetric.init 2)).size ∧
    ((OrderedByIntegerMetric.push id
            ([7].foldl (OrderedByIntegerMetric.push id)
              (OrderedByIntegerMetric.init 2)) 9).data =
        ([7].foldl (OrderedByIntegerMetric.push id)
          (OrderedByIntegerMetric.init 2)).data.set
          (min (id 9) (([7].foldl (OrderedByIntegerMetric.push id)
              (OrderedByIntegerMetric.init 2)).size - 1))
          (([7].foldl (OrderedByIntegerMetric.push id)
              (OrderedByIntegerMetric.init 2)).bucketAt
            (min (id 9) (([7].foldl (OrderedByIntegerMetric.push id)
              (OrderedByIntegerMetric.init 2)).size - 1)) ++ [9])) :=
  ⟨by decide,
    (obim_push_pop_characterization id
      ([7].foldl (OrderedByIntegerMetric.push id) (OrderedByIntegerMetric.init 2)) 9
      (by decide)).1.1⟩

/-- C10: `empty()` of the stealing-local worklist consults only the calling
worker's own inner queue — it is invariant under any change to the other
queues and returns `true` exactly when the own queue is empty — and it can
return `true` while the next worker's queue still holds an item that `pop()`
obtains by stealing: with two workers, worker 0's queue empty and worker 1
holding 42, `empty()` is `true` at worker 0 yet its `pop()` returns 42. -/
theorem stealingLocalWL_empty_local :
    (∀ (T : Type) (s s' : StealingLocalWL T) (tid : Nat),
        s.data.getD tid [] = s'.data.getD tid [] →
        StealingLocalWL.empty tid s = StealingLocalWL.empty tid s') ∧
    (∀ (T : Type) (s : StealingLocalWL T) (tid : Nat),
        StealingLocalWL.empty tid s = (s.data.getD tid []).isEmpty) ∧
    StealingLocalWL.empty 0 (⟨[[], [42]]⟩ : StealingLocalWL Nat) = true ∧
    (StealingLocalWL.pop 2 0 (⟨[[], [42]]⟩ : StealingLocalWL Nat)).1 = some 42 := by
  refine ⟨?_, ?_, by decide, by decide⟩
  · intro T s s' tid h
    unfold StealingLocalWL.empty
    rw [h]
  · intro T s tid
    rfl

/-- C10 witness for the universally quantified part: two states agreeing on
worker 0's queue get the same `empty()` answer. -/
theorem stealingLocalWL_empty_local_witness :
    (⟨[[7], []]⟩ : StealingLocalWL Nat).data.getD 0 [] =
        (⟨[[7], [42]]⟩ : StealingLocalWL Nat).data.getD 0 [] ∧
      StealingLocalWL.empty 0 (⟨[[7], []]⟩ : StealingLocalWL Nat) =
        StealingLocalWL.empty 0 (⟨[[7], [42]]⟩ : StealingLocalWL Nat) :=
  ⟨rfl, stealingLocalWL_empty_local.1 Nat ⟨[[7], []]⟩ ⟨[[7], [42]]⟩ 0 rfl⟩

end Katana
